import Mathlib

set_option maxRecDepth 8192

/-!
Verification development for the audio mixing engine of the Filoppi dolphin
fork: a shallow embedding of `Source/Core/AudioCommon/Mixer.cpp` and
`Source/Core/AudioCommon/WaveFile.cpp`, followed by theorems about the
embedded operations.

Modelling conventions:
- C++ `double`/`float` values (fractional positions, rates, interpolation
  weights) are modelled as `ℚ`.  All concrete values handled by the theorems
  below (rates such as 1, halves, the coefficient matrix, 16-bit sample
  values and their small combinations) are exactly representable in both
  `double` and `float`, so no rounding behaviour is lost at the points the
  theorems touch.
- `u32` counters are modelled as `ℤ` with an explicit wrap `k.emod 2^32`
  applied exactly where the C++ type forces it (index differences, masking).
- `s16`/`s32` sample values are `ℤ`; the C++ arithmetic right shift `>> 8`
  on a signed 32-bit value is floor division `Int.fdiv · 256`.
- Ring and output buffers are functions `Nat → ℤ`; the ring is only ever
  accessed at masked indices, mirroring the source's `& INDEX_MASK`.
-/

namespace AudioCommon

/-- Modelled from the spec: `Mixer.h` is not in the source tree.  Spec §3:
"A typical capacity is 2¹⁶ frames per channel pair". -/
def MAX_SAMPLES : Nat := 65536

/-- Number of shorts per frame (interleaved stereo). -/
def NC : Nat := 2

/-- Modelled from the spec: `Mixer.h` is not in the source tree.  The cubic
kernel uses a four-sample window and the code comments say "Stop 3
(INTERP_SAMPLES) samples from the end" (Mixer.cpp:249). -/
def INTERP_SAMPLES : Nat := 3

/-- Ring mask over the short-indexed buffer of `MAX_SAMPLES * NC` entries,
as used by every `& INDEX_MASK` access in Mixer.cpp. -/
def INDEX_MASK : Nat := MAX_SAMPLES * NC - 1

/-- `2^32`, the modulus of the C++ `u32` index arithmetic. -/
def U32_MOD : Int := 4294967296

/-- Wrap a signed index difference to a `u32` value. -/
def u32wrap (k : Int) : Nat := (k % U32_MOD).toNat

/-- A raw (monotone, possibly negative while playing backwards) index,
wrapped to `u32` and masked into the ring, as in `(k) & INDEX_MASK`. -/
def maskIdx (k : Int) : Nat := u32wrap k &&& INDEX_MASK

/-- `u32(double)` conversion (truncation towards zero) of a non-negative
rational; only reached with non-negative arguments in the modelled paths. -/
def u32trunc (q : ℚ) : Nat := (⌊q⌋).toNat

/-- `Common::swap16` applied to the 16-bit pattern of a stored short, with
the result reinterpreted as a signed 16-bit value (`s16`). -/
def swap16 (v : Int) : Int :=
  let p := (v % (65536 : Int)).toNat
  let q := (p % 256) * 256 + p / 256
  if q < 32768 then (q : Int) else (q : Int) - 65536

/-- `std::clamp(x, SHRT_MIN, SHRT_MAX)` (Mixer.cpp:310). -/
def clamp16 (x : Int) : Int := max (-32768) (min x 32767)

/-- `std::round`: round half away from zero. -/
def roundAway (q : ℚ) : Int := if 0 ≤ q then ⌊q + 1/2⌋ else ⌈q - 1/2⌉

/-- `Mixer::MixerFifo::GetNextIndexR` (Mixer.cpp:874-878).  `rateG` is the
rate the member function computes itself:
`(m_input_sample_rate * m_mixer->GetCurrentSpeed()) / m_mixer->m_sample_rate`;
`mFract` is the value of the member `m_fract`. -/
def GetNextIndexR (indexR : Int) (mFract rateG : ℚ) : Int :=
  indexR + (if 0 ≤ mFract then (NC : Int) * (u32trunc (mFract + rateG) : Int) else 0)

/-- `Mixer::MixerFifo::SamplesDifference` (Mixer.cpp:866-872). -/
def SamplesDifference (indexW indexR : Int) (mFract rateG : ℚ) : Nat :=
  let diff := u32wrap (indexW - GetNextIndexR indexR mFract rateG)
  let normalized_diff := diff &&& INDEX_MASK
  if normalized_diff = 0 then (if diff = 0 then 0 else MAX_SAMPLES * NC) else normalized_diff

/-- The four cubic weights `y0..y3` computed from the constant `coeffs`
array (Mixer.cpp:218-222 and 279-286): row-major products with
`x0 = x³, x1 = x², x2 = x` plus the constant column. -/
def cubicWeights (x2 : ℚ) : ℚ × ℚ × ℚ × ℚ :=
  let x1 := x2 * x2
  let x0 := x1 * x2
  ((-1/2) * x0 + 1 * x1 + (-1/2) * x2 + 0,
   (3/2) * x0 + (-5/2) * x1 + 0 * x2 + 1,
   (-3/2) * x0 + 2 * x1 + (1/2) * x2 + 0,
   (1/2) * x0 + (-1/2) * x1 + 0 * x2 + 0)

/-- One channel of the weighted four-tap sum (Mixer.cpp:294-301); `off` is
`1` for the left channel and `0` for the right channel. -/
def channelSum (scr : Nat → Int) (w : ℚ × ℚ × ℚ × ℚ) (indexR direction off : Int) : ℚ :=
  w.1 * ((scr (maskIdx (indexR + off)) : Int) : ℚ) +
  w.2.1 * ((scr (maskIdx (indexR + 2 * direction + off)) : Int) : ℚ) +
  w.2.2.1 * ((scr (maskIdx (indexR + 4 * direction + off)) : Int) : ℚ) +
  w.2.2.2 * ((scr (maskIdx (indexR + 6 * direction + off)) : Int) : ℚ)

/-- The endian-swap pre-pass (Mixer.cpp:234-239): starting at `first` and
stepping by `direction * NC`, each visited masked slot `k` (and `k + 1`)
of the shared interpolation buffer receives `swap16` of the ring value at
the same masked slot.  The loop runs `steps = samples_to_read / NC + 1`
times; the value written to a slot depends only on the slot, so the
update is order-independent and is modelled as an overlay. -/
def swapScratch (scratch buffer : Nat → Int) (first direction : Int) (steps : Nat) : Nat → Int :=
  fun k =>
    if ∃ j < steps, k = maskIdx (first + direction * (NC : Int) * (j : Int)) ∨
                    k = maskIdx (first + direction * (NC : Int) * (j : Int) + 1)
    then swap16 (buffer k) else scratch k

/-- Loop-invariant parameters of the interpolation loop in
`Mixer::MixerFifo::CubicInterpolation`. -/
structure CIParams where
  scratch : Nat → Int
  indexW : Int
  rate : ℚ
  rateG : ℚ
  mFract : ℚ
  lVolume : Int
  rVolume : Int
  forwards : Bool
  base : Nat

/-- Mutable state of the interpolation loop (Mixer.cpp:247-314): the output
buffer, the read cursor, the direction-selected fract reference, the
`l_s`/`r_s` in-out sample registers, the two availability counters and the
iteration count `i`. -/
structure CILoop where
  out : Nat → Int
  indexR : Int
  fract : ℚ
  l_s : Int
  r_s : Int
  available : Nat
  nextAvailable : Nat
  i : Nat

/-- One iteration of the interpolation loop body (Mixer.cpp:252-313).
While playing forwards the live loop fract is the member `m_fract`, so
`SamplesDifference` sees the just-updated value; while playing backwards
the member `m_fract` is the frozen `P.mFract`. -/
def ciStep (P : CIParams) (s : CILoop) : CILoop :=
  let direction : Int := if P.forwards = true then 1 else -1
  let fract1 := s.fract + P.rate
  let whole := u32trunc fract1
  let fract2 := fract1 - (whole : ℚ)
  let indexR := s.indexR + (NC : Int) * (whole : Int) * direction
  let available := s.nextAvailable
  let nextAvailable :=
    SamplesDifference P.indexW indexR (if P.forwards = true then fract2 else P.mFract) P.rateG
  let w := cubicWeights fract2
  let l_s_f := channelSum P.scratch w indexR direction 1
  let r_s_f := channelSum P.scratch w indexR direction 0
  let l_s := Int.fdiv (roundAway l_s_f * P.lVolume) 256
  let r_s := Int.fdiv (roundAway r_s_f * P.rVolume) 256
  let out1 := fun k =>
    if k = P.base + s.i * NC then clamp16 (s.out (P.base + s.i * NC) + l_s) else s.out k
  let out2 := fun k =>
    if k = P.base + s.i * NC + 1 then clamp16 (out1 (P.base + s.i * NC + 1) + r_s) else out1 k
  { out := out2, indexR := indexR, fract := fract2, l_s := l_s, r_s := r_s,
    available := available, nextAvailable := nextAvailable, i := s.i + 1 }

/-- The interpolation `while` loop (Mixer.cpp:250-314), by fuel on the
remaining requested frames (`i < num_samples` is the fuel being non-zero;
the availability guard only applies while playing forwards). -/
def ciLoop (P : CIParams) : Nat → CILoop → CILoop
  | 0, s => s
  | fuel + 1, s =>
    if P.forwards = true ∧
       ¬(INTERP_SAMPLES * NC < s.nextAvailable ∧ s.nextAvailable ≤ s.available)
    then s
    else ciLoop P fuel (ciStep P s)

/-- Result of `Mixer::MixerFifo::CubicInterpolation`: the written output,
the updated shared interpolation buffer, the final cursor and fract (stored
back through the references), the final `l_s`/`r_s` registers and the
number of frames produced. -/
structure CIResult where
  out : Nat → Int
  scratch : Nat → Int
  indexR : Int
  fract : ℚ
  l_s : Int
  r_s : Int
  count : Nat

/-- `Mixer::MixerFifo::CubicInterpolation` (Mixer.cpp:214-317).
`mFract` is the value of the member `m_fract` on entry (used by
`SamplesDifference`/`GetNextIndexR` and never modified by a backwards
pass); `fract` is the initial value of the direction-selected reference
(`m_fract` when `forwards`, `m_backwards_fract` otherwise); `base` is the
offset in shorts of the `samples` pointer inside the output buffer. -/
def CubicInterpolation (scratch buffer : Nat → Int) (mFract rateG : ℚ)
    (out : Nat → Int) (base num_samples : Nat) (rate : ℚ)
    (indexR indexW : Int) (l_s r_s lVolume rVolume : Int)
    (forwards : Bool) (fract : ℚ) : CIResult :=
  let available_samples := SamplesDifference indexW indexR mFract rateG
  let direction : Int := if forwards = true then 1 else -1
  let requested_samples := u32trunc (rate * (num_samples : ℚ)) * NC + NC
  let readable_samples := if forwards = true then available_samples else MAX_SAMPLES * NC
  let samples_to_read := min (requested_samples + INTERP_SAMPLES * NC) readable_samples
  let first_indexR := GetNextIndexR indexR mFract rateG
  let steps := samples_to_read / NC + 1
  let scratch1 := swapScratch scratch buffer first_indexR direction steps
  let fract1 := if fract < 0 ∧ 0 < num_samples ∧
                   (¬forwards = true ∨ INTERP_SAMPLES * NC < available_samples)
                then -rate else fract
  let P : CIParams := { scratch := scratch1, indexW := indexW, rate := rate, rateG := rateG,
                        mFract := mFract, lVolume := lVolume, rVolume := rVolume,
                        forwards := forwards, base := base }
  let s0 : CILoop := { out := out, indexR := indexR, fract := fract1, l_s := l_s, r_s := r_s,
                       available := available_samples, nextAvailable := available_samples,
                       i := 0 }
  let sF := ciLoop P num_samples s0
  { out := sF.out, scratch := scratch1, indexR := sF.indexR, fract := sF.fract,
    l_s := sF.l_s, r_s := sF.r_s, count := sF.i }

/-- Per-source FIFO state (`Mixer::MixerFifo`, fields from their uses in
Mixer.cpp; the class declaration lives in the missing `Mixer.h`). -/
structure MixerFifo where
  buffer : Nat → Int
  indexW : Int
  indexR : Int
  fract : ℚ
  backwards_fract : ℚ
  backwards_indexR : Int
  last_output_sample_l : Int
  last_output_sample_r : Int
  constantly_pushed : Bool
  currently_pushed : Bool
  input_sample_rate : ℚ
  lVolume : Int
  rVolume : Int

/-- The mixer-level values a `MixerFifo` operation reads from its owner:
the output sample rate `m_sample_rate` and the value of
`Mixer::GetCurrentSpeed()`.  Modelled from the spec: `GetCurrentSpeed` is
declared in the missing `Mixer.h`; per spec §4.3 it is the mixer's current
target playback speed. -/
structure MixerEnv where
  sample_rate : ℚ
  speed : ℚ

/-- Result of `Mixer::MixerFifo::Mix`: updated FIFO state, output buffer,
shared interpolation buffer and the produced (forward) frame count. -/
structure MixResult where
  fifo : MixerFifo
  out : Nat → Int
  scratch : Nat → Int
  count : Nat

/-- The padding loop of `Mixer::MixerFifo::Mix` (Mixer.cpp:197-204):
starting at frame `start`, add `l`/`r` into the next `cnt` output frames,
clamping after the addition. -/
def padLoop (l r : Int) (out : Nat → Int) (start : Nat) : Nat → (Nat → Int)
  | 0 => out
  | cnt + 1 =>
    let out1 := fun k => if k = start * NC then clamp16 (out (start * NC) + l) else out k
    let out2 := fun k =>
      if k = start * NC + 1 then clamp16 (out1 (start * NC + 1) + r) else out1 k
    padLoop l r out2 (start + 1) cnt

/-- `Mixer::MixerFifo::Mix` (Mixer.cpp:84-211).  Note the source seeds both
padding registers from `m_last_output_samples[1]` (lines 105-106), the
backwards pass drops the speed factor from the rate (line 148), and
`enable_backwards` is `true`. -/
def MixerFifo.Mix (f : MixerFifo) (env : MixerEnv) (scratch : Nat → Int)
    (samples : Nat → Int) (num_samples : Nat) (stretching : Bool) : MixResult :=
  let indexR := f.indexR
  let indexW := f.indexW
  let rate := f.input_sample_rate * (if stretching = true then 1 else env.speed) / env.sample_rate
  let rateG := f.input_sample_rate * env.speed / env.sample_rate
  let s0 := f.last_output_sample_r
  let s1 := f.last_output_sample_r
  let res := CubicInterpolation scratch f.buffer f.fract rateG samples 0 num_samples rate
               indexR indexW s0 s1 f.lVolume f.rVolume true f.fract
  let actual := res.count
  let last_l := res.l_s
  let last_r := res.r_s
  let backwards_indexR := if actual ≠ num_samples ∧ 0 < actual
                          then res.indexR + (INTERP_SAMPLES * NC : Int) else f.backwards_indexR
  let backwards_fract := if actual ≠ num_samples ∧ 0 < actual
                         then 1 - res.fract else f.backwards_fract
  let indexR1 : Int := if actual ≠ num_samples then indexW - (INTERP_SAMPLES * NC : Int)
                       else res.indexR
  let fract1 : ℚ := if actual ≠ num_samples then -1 else res.fract
  let behind_samples := num_samples - actual
  if 0 < behind_samples ∧ f.constantly_pushed = true ∧ stretching = false then
    let rate2 := f.input_sample_rate / env.sample_rate
    let resB := CubicInterpolation res.scratch f.buffer fract1 rateG res.out (actual * NC)
                  behind_samples rate2 backwards_indexR indexW last_l last_r
                  f.lVolume f.rVolume false backwards_fract
    { fifo := { f with
                indexR := indexR1
                fract := fract1
                backwards_indexR := resB.indexR
                backwards_fract := resB.fract
                last_output_sample_l := last_l
                last_output_sample_r := last_r },
      out := resB.out, scratch := resB.scratch, count := actual }
  else if 0 < behind_samples ∧ (f.constantly_pushed = true ∨ f.currently_pushed = true) then
    let out2 := padLoop last_l last_r res.out actual behind_samples
    { fifo := { f with
                indexR := indexR1
                fract := fract1
                backwards_indexR := backwards_indexR
                backwards_fract := backwards_fract
                last_output_sample_l := last_l
                last_output_sample_r := last_r },
      out := out2, scratch := res.scratch, count := actual }
  else
    { fifo := { f with
                indexR := indexR1
                fract := fract1
                backwards_indexR := backwards_indexR
                backwards_fract := backwards_fract
                last_output_sample_l := last_l
                last_output_sample_r := last_r },
      out := res.out, scratch := res.scratch, count := actual }

/-- `Mixer::MixerFifo::PushSamples` (Mixer.cpp:614-654).  The split
`memcpy` writes `samples[j]` to ring slot `(indexW & INDEX_MASK + j) mod
(MAX_SAMPLES * NC)` for `j < n * NC` (first block up to the ring end, second
block from slot 0), modelled as a single overlay keyed by the slot. -/
def MixerFifo.PushSamples (f : MixerFifo) (env : MixerEnv) (samples : Nat → Int)
    (num_samples : Nat) (samples_null : Bool) : MixerFifo :=
  if samples_null = true ∨ num_samples = 0 then f
  else
    let indexW := f.indexW
    let rateG := f.input_sample_rate * env.speed / env.sample_rate
    let fifo_samples := SamplesDifference indexW f.indexR f.fract rateG
    let n := if MAX_SAMPLES * NC < num_samples * NC + fifo_samples
             then MAX_SAMPLES - fifo_samples / NC else num_samples
    let base := maskIdx indexW
    let buffer1 := fun k =>
      if (k + MAX_SAMPLES * NC - base) % (MAX_SAMPLES * NC) < n * NC
      then samples ((k + MAX_SAMPLES * NC - base) % (MAX_SAMPLES * NC))
      else f.buffer k
    { f with buffer := buffer1, indexW := indexW + (n * NC : Int) }

/-- `Mixer::MixerFifo::SetVolume` (Mixer.cpp:846-850). -/
def MixerFifo.SetVolume (f : MixerFifo) (lVolume rVolume : Nat) : MixerFifo :=
  { f with lVolume := ((lVolume + (lVolume >>> 7) : Nat) : Int),
           rVolume := ((rVolume + (rVolume >>> 7) : Nat) : Int) }

/-- The stored per-channel volume value `v + (v >> 7)` written by
`SetVolume`. -/
def storedVolume (v : Nat) : Nat := v + (v >>> 7)

/-- `Mixer` state for the top-level mix paths: the six FIFOs, the output
sample rate, the shared interpolation buffer and the surround/stretch
scratch buffer.  `target_speed` is spec-modelled (§4.3): the value the
speed-control block of `Mixer::Mix` - which reads the `SpeedTracker` and
config, neither of which is in the source tree - leaves in
`m_target_speed`. -/
structure MixerState where
  dma_mixer : MixerFifo
  streaming_mixer : MixerFifo
  wiimote_speaker_mixer0 : MixerFifo
  wiimote_speaker_mixer1 : MixerFifo
  wiimote_speaker_mixer2 : MixerFifo
  wiimote_speaker_mixer3 : MixerFifo
  sample_rate : ℚ
  target_speed : ℚ
  scratch : Nat → Int
  scratch_buffer : Nat → Int

/-- `Mixer::Mix` (Mixer.cpp:319-573), direct (non-stretching,
stretcher-drained) path.  The early-out guard is Mixer.cpp:322:
`if (!samples || num_samples == 0 || m_dma_speed.IsPaused()) return 0;`.
The speed-control block between the guard and the mixing calls only
computes `m_target_speed` (spec-modelled as the `target_speed` field, since
`SpeedTracker` and the config system are not in the source tree); the
stretching branch is outside the modelled paths. -/
def Mixer.Mix (m : MixerState) (paused samples_null : Bool)
    (samples : Nat → Int) (num_samples : Nat) : Nat × MixerState × (Nat → Int) :=
  if samples_null = true ∨ num_samples = 0 ∨ paused = true then (0, m, samples)
  else
    let env : MixerEnv := { sample_rate := m.sample_rate, speed := m.target_speed }
    let out0 := fun k => if k < num_samples * NC then 0 else samples k
    let r1 := m.dma_mixer.Mix env m.scratch out0 num_samples false
    let r2 := m.streaming_mixer.Mix env r1.scratch r1.out num_samples false
    let r3 := m.wiimote_speaker_mixer0.Mix env r2.scratch r2.out num_samples false
    let r4 := m.wiimote_speaker_mixer1.Mix env r3.scratch r3.out num_samples false
    let r5 := m.wiimote_speaker_mixer2.Mix env r4.scratch r4.out num_samples false
    let r6 := m.wiimote_speaker_mixer3.Mix env r5.scratch r5.out num_samples false
    (num_samples,
     { m with dma_mixer := r1.fifo, streaming_mixer := r2.fifo,
              wiimote_speaker_mixer0 := r3.fifo, wiimote_speaker_mixer1 := r4.fifo,
              wiimote_speaker_mixer2 := r5.fifo, wiimote_speaker_mixer3 := r6.fifo,
              scratch := r6.scratch },
     r6.out)

/-- Channels of the surround output. -/
def SURROUND_CHANNELS : Nat := 6

/-- `Mixer::MixSurround` (Mixer.cpp:575-612).  The surround decoder is not
in the source tree; modelled from the spec (§3 SurroundDecoder contract) as
an abstract state `α` with `query` (`QuerySamplesNeededForSurroundOutput`),
`pushD` (`PushSamples`) and `getD` (`GetDecodedSamples`, writing into the
zeroed float output).  The internal `Mix` call is the real embedded
`Mixer.Mix` with the scratch staging buffer as its target. -/
def Mixer.MixSurround {α : Type} (m : MixerState) (paused : Bool)
    (query : Nat → Nat) (pushD : α → (Nat → Int) → Nat → α)
    (getD : α → (Nat → ℚ) → Nat → α × (Nat → ℚ))
    (decoder : α) (samples : Nat → ℚ) (num_samples : Nat) :
    Nat × MixerState × α × (Nat → ℚ) :=
  let out0 := fun k => if k < num_samples * SURROUND_CHANNELS then 0 else samples k
  let needed_samples := query num_samples
  let r := Mixer.Mix m paused false m.scratch_buffer needed_samples
  let m1 := { r.2.1 with scratch_buffer := r.2.2 }
  if r.1 ≠ needed_samples then (0, m1, decoder, out0)
  else
    let d1 := pushD decoder m1.scratch_buffer needed_samples
    let rg := getD d1 out0 num_samples
    (num_samples, m1, rg.1, rg.2)

end AudioCommon

namespace WaveFile

/-- Little-endian bytes of a 32-bit value as written by
`WaveFileWriter::Write` (WaveFile.cpp:106-109, raw `u32` store on a
little-endian host); each byte is a bit window, so values ≥ 2³² wrap
exactly like the C++ `u32`. -/
def u32le (v : Nat) : List Nat :=
  [v % 256, v / 256 % 256, v / 65536 % 256, v / 16777216 % 256]

/-- Little-endian bytes of a 16-bit value (raw `u16` store). -/
def u16le (v : Nat) : List Nat := [v % 256, v / 256 % 256]

/-- The 16-bit pattern of a stored short. -/
def sampleU16 (v : Int) : Nat := (v % (65536 : Int)).toNat

/-- `Common::swap16` on a 16-bit pattern. -/
def swap16u (p : Nat) : Nat := (p % 256) * 256 + p / 256 % 256

/-- `WaveFileWriter` state: the bytes of the current file, `audio_size`,
`current_sample_rate` and `skip_silence`. -/
structure WaveState where
  file : List Nat
  audio_size : Nat
  current_sample_rate : Nat
  skip_silence : Bool

/-- The 44-byte header written by `WaveFileWriter::Start`
(WaveFile.cpp:72-85): RIFF tag, placeholder size 100 000 000, WAVE and
fmt tags, fmt block size 16, `0x00020001` (two channels, PCM), sample
rate, byte rate, `0x00100004`, data tag, placeholder data size. -/
def header (sample_rate : Nat) : List Nat :=
  [82, 73, 70, 70] ++ u32le 100000000 ++ [87, 65, 86, 69] ++ [102, 109, 116, 32] ++
  u32le 16 ++ u32le 0x00020001 ++ u32le sample_rate ++ u32le (sample_rate * 2 * 2) ++
  u32le 0x00100004 ++ [100, 97, 116, 97] ++ u32le (100000000 - 32)

/-- `WaveFileWriter::Start` on the success path (file opened, header
written; the file-exists prompt and open-failure paths abort without
writing). -/
def Start (sample_rate : Nat) (skip : Bool) : WaveState :=
  { file := header sample_rate, audio_size := 0,
    current_sample_rate := sample_rate, skip_silence := skip }

/-- Bytes appended for one stereo frame `(a, b)` by the conversion loop of
`AddStereoSamplesBE` (WaveFile.cpp:152-159): channels flipped from RL to
LR, each short byte-swapped and stored little-endian. -/
def encodeFrame8 (a b : Int) : List Nat :=
  u16le (swap16u (sampleU16 b)) ++ u16le (swap16u (sampleU16 a))

/-- Bytes appended for `count` frames read from `sample_data`. -/
def encodeData (sample_data : Nat → Int) : Nat → List Nat
  | 0 => []
  | i + 1 => encodeData sample_data i ++ encodeFrame8 (sample_data (2 * i)) (sample_data (2 * i + 1))

/-- `WaveFileWriter::AddStereoSamplesBE` (WaveFile.cpp:116-161).  The
silence skip returns unchanged when enabled and all shorts are zero; a
sample-rate change finalises the current file and starts a new one (the
model tracks the new current file); otherwise the converted bytes are
appended and `audio_size` grows by `count * 4`. -/
def AddStereoSamplesBE (w : WaveState) (sample_data : Nat → Int) (count sample_rate : Nat) :
    WaveState :=
  if w.skip_silence = true ∧ ∀ i < count * 2, sample_data i = 0 then w
  else
    let w1 := if sample_rate ≠ w.current_sample_rate then Start sample_rate w.skip_silence else w
    { w1 with file := w1.file ++ encodeData sample_data count,
              audio_size := w1.audio_size + count * 4 }

/-- Overwrite 4 bytes at offset `off` (a seek-and-write of one `u32`). -/
def write32At (l : List Nat) (off v : Nat) : List Nat :=
  l.take off ++ u32le v ++ l.drop (off + 4)

/-- `WaveFileWriter::Stop` (WaveFile.cpp:94-104): seek to offset 4 and
write `audio_size + 36`, seek to offset 40 and write `audio_size`. -/
def Stop (w : WaveState) : WaveState :=
  { w with file := write32At (write32At w.file 4 (w.audio_size + 36)) 40 w.audio_size }

/-- Read back a little-endian 32-bit field at byte offset `off`. -/
def readU32 (l : List Nat) (off : Nat) : Nat :=
  l.getD off 0 + 256 * l.getD (off + 1) 0 + 65536 * l.getD (off + 2) 0 +
  16777216 * l.getD (off + 3) 0

/-- Run a sequence of `AddStereoSamplesBE` calls, all at rate `R`. -/
def runPushes (w : WaveState) (R : Nat) : List ((Nat → Int) × Nat) → WaveState
  | [] => w
  | p :: ps => runPushes (AddStereoSamplesBE w p.1 p.2 R) R ps

/-- Total number of frames in a sequence of pushes. -/
def totalFrames : List ((Nat → Int) × Nat) → Nat
  | [] => 0
  | p :: ps => p.2 + totalFrames ps

/-- Concatenated converted data bytes of a sequence of pushes. -/
def dataBytes : List ((Nat → Int) × Nat) → List Nat
  | [] => []
  | p :: ps => encodeData p.1 p.2 ++ dataBytes ps

end WaveFile

/-! Basic arithmetic lemmas about the embedded primitives. -/

namespace AudioCommon

theorem maskIdx_le (k : Int) : maskIdx k ≤ INDEX_MASK :=
  Nat.and_le_right

theorem maskIdx_eq (k : Int) : maskIdx k = (k % (131072 : Int)).toNat := by
  simp only [maskIdx, u32wrap, INDEX_MASK, MAX_SAMPLES, NC, U32_MOD]
  have h1 : (65536 * 2 - 1 : Nat) = 2 ^ 17 - 1 := by norm_num
  rw [h1, Nat.and_pow_two_sub_one_eq_mod]
  have h2 : k % (4294967296 : Int) % (131072 : Int) = k % (131072 : Int) :=
    Int.emod_emod_of_dvd k (by norm_num)
  have h3 : 0 ≤ k % (4294967296 : Int) := Int.emod_nonneg k (by norm_num)
  have h4 : 0 ≤ k % (131072 : Int) := Int.emod_nonneg k (by norm_num)
  omega

theorem u32wrap_of_bounds (k : Int) (h0 : 0 ≤ k) (h1 : k < 4294967296) :
    u32wrap k = k.toNat := by
  simp only [u32wrap, U32_MOD]
  rw [Int.emod_eq_of_lt h0 h1]

theorem u32trunc_zero : u32trunc 0 = 0 := by
  simp [u32trunc]

theorem u32trunc_one : u32trunc 1 = 1 := by
  simp [u32trunc]

theorem u32trunc_natCast (n : Nat) : u32trunc (n : ℚ) = n := by
  simp [u32trunc]

theorem GetNextIndexR_of_neg (R : Int) (mF rG : ℚ) (h : mF < 0) :
    GetNextIndexR R mF rG = R := by
  unfold GetNextIndexR
  rw [if_neg (not_le.mpr h)]
  ring

theorem GetNextIndexR_of_nonneg (R : Int) (mF rG : ℚ) (h : 0 ≤ mF) :
    GetNextIndexR R mF rG = R + 2 * (u32trunc (mF + rG) : Int) := by
  unfold GetNextIndexR NC
  rw [if_pos h]
  norm_num

theorem GetNextIndexR_le (R : Int) (mF rG : ℚ) : R ≤ GetNextIndexR R mF rG := by
  unfold GetNextIndexR
  split_ifs with h
  · have : (0 : Int) ≤ (NC : Int) * (u32trunc (mF + rG) : Int) := by positivity
    omega
  · omega

theorem GetNextIndexR_sub_even (R : Int) (mF rG : ℚ) :
    (2 : Int) ∣ (GetNextIndexR R mF rG - R) := by
  unfold GetNextIndexR NC
  split_ifs with h
  · exact ⟨(u32trunc (mF + rG) : Int), by push_cast; ring⟩
  · exact ⟨0, by ring⟩

theorem SamplesDifference_eq_of (W R : Int) (mF rG : ℚ) (d : Int)
    (hd : W - GetNextIndexR R mF rG = d) (h0 : 0 ≤ d) (h1 : d ≤ 131072) :
    SamplesDifference W R mF rG = d.toNat := by
  simp only [SamplesDifference]
  rw [hd, u32wrap_of_bounds d h0 (by omega)]
  have hmask : d.toNat &&& INDEX_MASK = d.toNat % 131072 := by
    have h2 : INDEX_MASK = 2 ^ 17 - 1 := by norm_num [INDEX_MASK, MAX_SAMPLES, NC]
    rw [h2, Nat.and_pow_two_sub_one_eq_mod]
  rw [hmask]
  have hMN : MAX_SAMPLES * NC = 131072 := by norm_num [MAX_SAMPLES, NC]
  split_ifs with hz hd0
  · omega
  · omega
  · omega

theorem swap16_range (v : Int) : -32768 ≤ swap16 v ∧ swap16 v ≤ 32767 := by
  simp only [swap16]
  have h0 : 0 ≤ v % (65536 : Int) := Int.emod_nonneg v (by norm_num)
  have h1 : v % (65536 : Int) < 65536 := Int.emod_lt_of_pos v (by norm_num)
  have h : (v % (65536 : Int)).toNat < 65536 := by omega
  have hq : ((v % (65536 : Int)).toNat % 256) * 256 + (v % (65536 : Int)).toNat / 256 ≤ 65535 := by
    omega
  split_ifs with hlt
  · constructor <;> omega
  · constructor <;> omega

theorem clamp16_of_range (x : Int) (h1 : -32768 ≤ x) (h2 : x ≤ 32767) :
    clamp16 x = x := by
  unfold clamp16
  rw [min_eq_left h2, max_eq_right h1]

theorem roundAway_intCast (m : Int) : roundAway (m : ℚ) = m := by
  unfold roundAway
  split_ifs with h
  · have he : ((m : ℚ) + 1/2) = (1/2 : ℚ) + m := by ring
    rw [he, Int.floor_add_int]
    norm_num
  · have he : ((m : ℚ) - 1/2) = (-(1/2) : ℚ) + m := by ring
    rw [he, Int.ceil_add_int]
    have hc : ⌈(-(1/2) : ℚ)⌉ = 0 := Int.ceil_eq_iff.mpr (by norm_num)
    rw [hc]
    ring

theorem volume_unity (v : Int) : Int.fdiv (v * 256) 256 = v :=
  Int.mul_fdiv_cancel v (by norm_num)

theorem cubicWeights_zero : cubicWeights 0 = (0, 1, 0, 0) := by
  norm_num [cubicWeights]

end AudioCommon

/-! Shared concrete instances used by witnesses. -/

namespace AudioCommon

/-- A concrete FIFO used by the witnesses: fresh indices, reset fract
sentinel, full volume, 48 kHz input. -/
def fifo0 : MixerFifo :=
  { buffer := fun _ => 0, indexW := 0, indexR := 0, fract := -1, backwards_fract := 0,
    backwards_indexR := 0, last_output_sample_l := 0, last_output_sample_r := 0,
    constantly_pushed := true, currently_pushed := true, input_sample_rate := 48000,
    lVolume := 256, rVolume := 256 }

/-- A concrete mixer state used by the witnesses. -/
def mixer0 : MixerState :=
  { dma_mixer := fifo0, streaming_mixer := fifo0,
    wiimote_speaker_mixer0 := fifo0, wiimote_speaker_mixer1 := fifo0,
    wiimote_speaker_mixer2 := fifo0, wiimote_speaker_mixer3 := fifo0,
    sample_rate := 48000, target_speed := 1,
    scratch := fun _ => 0, scratch_buffer := fun _ => 0 }

/-- The claim's coefficient matrix for C3, written per the spec's words
(§4.1), in particular `y1 = 1.5x³ − 2.5x² + 0` with no constant term. -/
def specClaimWeights (x : ℚ) : ℚ × ℚ × ℚ × ℚ :=
  ((-1/2) * x^3 + x^2 + (-1/2) * x,
   (3/2) * x^3 + (-5/2) * x^2 + 0,
   (-3/2) * x^3 + 2 * x^2 + (1/2) * x,
   (1/2) * x^3 + (-1/2) * x^2 + 0)

/-- C3 (counterexample): at fractional position `x = 0` the code's weight
vector is `(0, 1, 0, 0)` (the `coeffs` row for `y1` has constant column
`1.0`), while the claim's matrix gives `y1 = 0`; so the claimed formula
does not match the code. -/
theorem claim_C3_counterexample : cubicWeights 0 ≠ specClaimWeights 0 := by
  simp [cubicWeights, specClaimWeights]

/-- C3 (amended): for every fractional position `x ∈ [0, 1)` the code's
tap weights are `y0 = −0.5x³ + x² − 0.5x`, `y1 = 1.5x³ − 2.5x² + 1`
(the claim's `y1` misses the constant `+1`), `y2 = −1.5x³ + 2x² + 0.5x`,
`y3 = 0.5x³ − 0.5x²`, and each output channel is the weight-sum of the
four consecutive ring samples at stride `NC` in the play direction. -/
theorem claim_C3 (x : ℚ) (h0 : 0 ≤ x) (h1 : x < 1) :
    cubicWeights x = ((-1/2) * x^3 + x^2 + (-1/2) * x,
                      (3/2) * x^3 + (-5/2) * x^2 + 1,
                      (-3/2) * x^3 + 2 * x^2 + (1/2) * x,
                      (1/2) * x^3 + (-1/2) * x^2) ∧
    ∀ (scr : Nat → Int) (ir dir off : Int),
      channelSum scr (cubicWeights x) ir dir off =
        (cubicWeights x).1 * ((scr (maskIdx (ir + off)) : Int) : ℚ) +
        (cubicWeights x).2.1 * ((scr (maskIdx (ir + 2 * dir + off)) : Int) : ℚ) +
        (cubicWeights x).2.2.1 * ((scr (maskIdx (ir + 4 * dir + off)) : Int) : ℚ) +
        (cubicWeights x).2.2.2 * ((scr (maskIdx (ir + 6 * dir + off)) : Int) : ℚ) := by
  constructor
  · simp only [cubicWeights, Prod.mk.injEq]
    refine ⟨by ring, by ring, by ring, by ring⟩
  · intro scr ir dir off
    rfl

/-- C3 witness at `x = 1/2`. -/
theorem claim_C3_witness :
    (0 : ℚ) ≤ 1/2 ∧
    cubicWeights (1/2) = ((-1/2) * (1/2:ℚ)^3 + (1/2:ℚ)^2 + (-1/2) * (1/2:ℚ),
                          (3/2) * (1/2:ℚ)^3 + (-5/2) * (1/2:ℚ)^2 + 1,
                          (-3/2) * (1/2:ℚ)^3 + 2 * (1/2:ℚ)^2 + (1/2) * (1/2:ℚ),
                          (1/2) * (1/2:ℚ)^3 + (-1/2) * (1/2:ℚ)^2) :=
  ⟨by norm_num, (claim_C3 (1/2) (by norm_num) (by norm_num)).1⟩

/-- C5 (counterexample): with `indexW = indexR = 0` but consumer state
`fract = 1/2` and rate `1/2`, `GetNextIndexR` advances past `indexW`, the
`u32` difference wraps, and `SamplesDifference` returns 131070, not 0; so
the claim's "for every value of fract and rate" fails. -/
theorem claim_C5_counterexample :
    SamplesDifference 0 0 (1/2) (1/2) = 131070 ∧ SamplesDifference 0 0 (1/2) (1/2) ≠ 0 := by
  constructor
  · with_unfolding_all decide
  · with_unfolding_all decide

/-- C5 (amended): `SamplesDifference(W, W)` returns 0 (empty, never full)
whenever the consumer's pending advance is zero: `fract < 0` (the reset
sentinel) or `u32(fract + rate) = 0` (that is, `fract + rate < 1`). -/
theorem claim_C5 (W : Int) (mF rG : ℚ) (h : mF < 0 ∨ u32trunc (mF + rG) = 0) :
    SamplesDifference W W mF rG = 0 := by
  have hg : GetNextIndexR W mF rG = W := by
    rcases h with h | h
    · exact GetNextIndexR_of_neg W mF rG h
    · rcases lt_or_le mF 0 with h0 | h0
      · exact GetNextIndexR_of_neg W mF rG h0
      · rw [GetNextIndexR_of_nonneg W mF rG h0, h]
        push_cast
        ring
  have hsd := SamplesDifference_eq_of W W mF rG 0 (by rw [hg]; ring) (by omega) (by omega)
  simpa using hsd

/-- C5 witness at `W = 7`, `fract = −1` (sentinel), rate 5. -/
theorem claim_C5_witness :
    ((-1 : ℚ) < 0 ∨ u32trunc ((-1) + 5) = 0) ∧ SamplesDifference 7 7 (-1) 5 = 0 :=
  ⟨Or.inl (by norm_num), claim_C5 7 (-1) 5 (Or.inl (by norm_num))⟩

/-- C8: whenever the output pointer is null, the requested frame count is
0, or the speed tracker reports paused, `Mixer::Mix` returns 0 and leaves
both the mixer state (all FIFOs) and the output buffer untouched
(Mixer.cpp:322-323). -/
theorem claim_C8 (m : MixerState) (paused null_out : Bool) (samples : Nat → Int) (n : Nat)
    (h : null_out = true ∨ n = 0 ∨ paused = true) :
    Mixer.Mix m paused null_out samples n = (0, m, samples) := by
  simp only [Mixer.Mix]
  rw [if_pos h]

/-- C8 witness: paused mixer, 5 requested frames. -/
theorem claim_C8_witness :
    ((false : Bool) = true ∨ (5 : Nat) = 0 ∨ (true : Bool) = true) ∧
    Mixer.Mix mixer0 true false (fun _ => 0) 5 = (0, mixer0, fun _ => 0) :=
  ⟨Or.inr (Or.inr rfl), claim_C8 mixer0 true false (fun _ => 0) 5 (Or.inr (Or.inr rfl))⟩

/-- C7: `MixSurround` zeroes the 6-channel output first, queries the
decoder for the exact input count needed and runs the internal `Mix` into
the staging buffer.  If `Mix` returns a different count, it returns 0 with
the decoder untouched (nothing pushed) and the output still zeroed;
otherwise it pushes exactly the `needed_samples` staged frames into the
decoder, retrieves `n` decoded frames into the zeroed output and returns
`n` (Mixer.cpp:575-612). -/
theorem claim_C7 {α : Type} (m : MixerState) (paused : Bool) (query : Nat → Nat)
    (pushD : α → (Nat → Int) → Nat → α) (getD : α → (Nat → ℚ) → Nat → α × (Nat → ℚ))
    (decoder : α) (samples : Nat → ℚ) (n : Nat) :
    ((Mixer.Mix m paused false m.scratch_buffer (query n)).1 ≠ query n →
      Mixer.MixSurround m paused query pushD getD decoder samples n =
        (0,
         { (Mixer.Mix m paused false m.scratch_buffer (query n)).2.1 with
           scratch_buffer := (Mixer.Mix m paused false m.scratch_buffer (query n)).2.2 },
         decoder,
         fun k => if k < n * SURROUND_CHANNELS then 0 else samples k)) ∧
    ((Mixer.Mix m paused false m.scratch_buffer (query n)).1 = query n →
      Mixer.MixSurround m paused query pushD getD decoder samples n =
        (n,
         { (Mixer.Mix m paused false m.scratch_buffer (query n)).2.1 with
           scratch_buffer := (Mixer.Mix m paused false m.scratch_buffer (query n)).2.2 },
         (getD
           (pushD decoder (Mixer.Mix m paused false m.scratch_buffer (query n)).2.2
             (query n))
           (fun k => if k < n * SURROUND_CHANNELS then 0 else samples k) n).1,
         (getD
           (pushD decoder (Mixer.Mix m paused false m.scratch_buffer (query n)).2.2
             (query n))
           (fun k => if k < n * SURROUND_CHANNELS then 0 else samples k) n).2)) := by
  constructor
  · intro h
    simp only [Mixer.MixSurround]
    rw [if_pos h]
  · intro h
    simp only [Mixer.MixSurround]
    rw [if_neg (fun hx => hx h)]

/-- C7 witness: a paused mixer makes the internal `Mix` return 0 while one
input frame is needed, so the call fails over to `(0, ·, decoder, zeroed)`;
with a decoder needing 0 input frames the internal count matches and the
success path pushes, decodes and returns `n = 1`. -/
theorem claim_C7_witness :
    (Mixer.Mix mixer0 true false mixer0.scratch_buffer ((fun _ => 1) (1 : Nat))).1 ≠
      (fun _ => 1) (1 : Nat) ∧
    Mixer.MixSurround mixer0 true (fun _ => 1) (fun (d : Unit) _ _ => d)
        (fun (d : Unit) o _ => (d, o)) () (fun _ => 0) 1 =
      (0,
       { (Mixer.Mix mixer0 true false mixer0.scratch_buffer 1).2.1 with
         scratch_buffer := (Mixer.Mix mixer0 true false mixer0.scratch_buffer 1).2.2 },
       (),
       fun k => if k < 1 * SURROUND_CHANNELS then (0 : ℚ) else (fun _ => 0) k) ∧
    (Mixer.Mix mixer0 true false mixer0.scratch_buffer ((fun _ => 0) (1 : Nat))).1 =
      (fun _ => 0) (1 : Nat) ∧
    Mixer.MixSurround mixer0 true (fun _ => 0) (fun (d : Unit) _ _ => d)
        (fun (d : Unit) o _ => (d, o)) () (fun _ => 0) 1 =
      (1,
       { (Mixer.Mix mixer0 true false mixer0.scratch_buffer 0).2.1 with
         scratch_buffer := (Mixer.Mix mixer0 true false mixer0.scratch_buffer 0).2.2 },
       (),
       fun k => if k < 1 * SURROUND_CHANNELS then (0 : ℚ) else (fun _ => 0) k) :=
  ⟨by with_unfolding_all decide,
   (claim_C7 mixer0 true (fun _ => 1) (fun (d : Unit) _ _ => d)
     (fun (d : Unit) o _ => (d, o)) () (fun _ => 0) 1).1 (by with_unfolding_all decide),
   by with_unfolding_all decide,
   (claim_C7 mixer0 true (fun _ => 0) (fun (d : Unit) _ _ => d)
     (fun (d : Unit) o _ => (d, o)) () (fun _ => 0) 1).2 (by with_unfolding_all decide)⟩

/-- C10: `SetVolume` stores `v + (v >> 7)` per channel: `0 ↦ 0`,
`255 ↦ 256` (unity gain under the interpolator's `>> 8`), `256 ↦ 258`,
and every argument below 256 stays at or below 256. -/
theorem claim_C10 (f : MixerFifo) (lv rv : Nat) :
    (f.SetVolume lv rv).lVolume = (storedVolume lv : Int) ∧
    (f.SetVolume lv rv).rVolume = (storedVolume rv : Int) ∧
    (∀ v : Nat, storedVolume v = v + v / 128) ∧
    storedVolume 0 = 0 ∧ storedVolume 255 = 256 ∧ storedVolume 256 = 258 ∧
    (∀ v < 256, storedVolume v ≤ 256) ∧
    (∀ s : Int, Int.fdiv (s * 256) 256 = s) := by
  refine ⟨rfl, rfl, ?_, by decide, by decide, by decide, by decide, volume_unity⟩
  intro v
  simp [storedVolume, Nat.shiftRight_eq_div_pow]

/-- C10 witness at volume argument 255. -/
theorem claim_C10_witness :
    (fifo0.SetVolume 255 0).lVolume = (storedVolume 255 : Int) ∧ storedVolume 255 = 256 :=
  ⟨(claim_C10 fifo0 255 0).1, (claim_C10 fifo0 255 0).2.2.2.2.1⟩

end AudioCommon

/-! Structural lemmas about the interpolation loop and the padding loop.
Output positions are stated with the literal stride `2` (`= NC`). -/

namespace AudioCommon

theorem NC_eq : NC = 2 := rfl

theorem ciStep_i (P : CIParams) (s : CILoop) : (ciStep P s).i = s.i + 1 := rfl

theorem ciStep_out_ne (P : CIParams) (s : CILoop) (j : Nat)
    (h1 : j ≠ P.base + s.i * 2) (h2 : j ≠ P.base + s.i * 2 + 1) :
    (ciStep P s).out j = s.out j := by
  simp only [ciStep, NC_eq]
  rw [if_neg h2, if_neg h1]

theorem ciLoop_i_le (P : CIParams) (fuel : Nat) (s : CILoop) :
    s.i ≤ (ciLoop P fuel s).i := by
  induction fuel generalizing s with
  | zero => exact le_refl _
  | succ n ih =>
    simp only [ciLoop]
    split_ifs with hg
    · exact le_refl _
    · have h1 : s.i ≤ (ciStep P s).i := by rw [ciStep_i]; omega
      exact le_trans h1 (ih (ciStep P s))

theorem ciLoop_eq_of_i_eq (P : CIParams) (fuel : Nat) (s : CILoop)
    (h : (ciLoop P fuel s).i = s.i) : ciLoop P fuel s = s := by
  induction fuel generalizing s with
  | zero => rfl
  | succ n ih =>
    simp only [ciLoop] at h ⊢
    split_ifs at h ⊢ with hg
    · rfl
    · exfalso
      have h1 := ciLoop_i_le P n (ciStep P s)
      rw [ciStep_i] at h1
      omega

theorem ciLoop_out_lower (P : CIParams) (fuel : Nat) (s : CILoop) (j : Nat)
    (hj : j < P.base + s.i * 2) : (ciLoop P fuel s).out j = s.out j := by
  induction fuel generalizing s with
  | zero => rfl
  | succ n ih =>
    simp only [ciLoop]
    split_ifs with hg
    · rfl
    · rw [ih (ciStep P s) (by rw [ciStep_i]; omega)]
      exact ciStep_out_ne P s j (by omega) (by omega)

theorem ciLoop_out_upper (P : CIParams) (fuel : Nat) (s : CILoop) (j : Nat)
    (hj : P.base + (ciLoop P fuel s).i * 2 ≤ j) : (ciLoop P fuel s).out j = s.out j := by
  induction fuel generalizing s with
  | zero => rfl
  | succ n ih =>
    simp only [ciLoop] at hj ⊢
    split_ifs at hj ⊢ with hg
    · rfl
    · have hstep := ciLoop_i_le P n (ciStep P s)
      rw [ciStep_i] at hstep
      rw [ih (ciStep P s) hj]
      exact ciStep_out_ne P s j (by omega) (by omega)

theorem ciLoop_last (P : CIParams) (fuel : Nat) (s : CILoop)
    (h : s.i < (ciLoop P fuel s).i) :
    (ciLoop P fuel s).out (P.base + ((ciLoop P fuel s).i - 1) * 2) =
      clamp16 (s.out (P.base + ((ciLoop P fuel s).i - 1) * 2) + (ciLoop P fuel s).l_s) ∧
    (ciLoop P fuel s).out (P.base + ((ciLoop P fuel s).i - 1) * 2 + 1) =
      clamp16 (s.out (P.base + ((ciLoop P fuel s).i - 1) * 2 + 1) + (ciLoop P fuel s).r_s) := by
  induction fuel generalizing s with
  | zero => simp only [ciLoop] at h; omega
  | succ n ih =>
    simp only [ciLoop] at h ⊢
    split_ifs at h ⊢ with hg
    · omega
    · rcases Nat.lt_or_ge (ciStep P s).i (ciLoop P n (ciStep P s)).i with hlt | hge
      · have hii : s.i + 1 ≤ (ciLoop P n (ciStep P s)).i - 1 := by
          rw [ciStep_i] at hlt
          omega
        obtain ⟨e1, e2⟩ := ih (ciStep P s) hlt
        constructor
        · rw [e1, ciStep_out_ne P s _ (by omega) (by omega)]
        · rw [e2, ciStep_out_ne P s _ (by omega) (by omega)]
      · have heq : (ciLoop P n (ciStep P s)).i = (ciStep P s).i :=
          le_antisymm hge (ciLoop_i_le P n _)
        have hLeq : ciLoop P n (ciStep P s) = ciStep P s := ciLoop_eq_of_i_eq P n _ heq
        rw [hLeq, ciStep_i, Nat.add_sub_cancel]
        have hne1 : P.base + s.i * 2 ≠ P.base + s.i * 2 + 1 := by omega
        have hne2 : P.base + s.i * 2 + 1 ≠ P.base + s.i * 2 := by omega
        constructor
        · simp only [ciStep, NC_eq]
          simp [hne1]
        · simp only [ciStep, NC_eq]
          simp [hne2]

theorem padLoop_out_lower (l r : Int) (out : Nat → Int) (start cnt j : Nat)
    (hj : j < start * 2) : padLoop l r out start cnt j = out j := by
  induction cnt generalizing out start with
  | zero => rfl
  | succ n ih =>
    simp only [padLoop, NC_eq]
    rw [ih _ (start + 1) (by omega)]
    rw [if_neg (by omega), if_neg (by omega)]

theorem padLoop_out_upper (l r : Int) (out : Nat → Int) (start cnt j : Nat)
    (hj : (start + cnt) * 2 ≤ j) : padLoop l r out start cnt j = out j := by
  induction cnt generalizing out start with
  | zero => rfl
  | succ n ih =>
    simp only [padLoop, NC_eq]
    rw [ih _ (start + 1) (by omega)]
    rw [if_neg (by omega), if_neg (by omega)]

theorem padLoop_val (l r : Int) (out : Nat → Int) (start cnt t : Nat) (ht : t < cnt) :
    padLoop l r out start cnt ((start + t) * 2) = clamp16 (out ((start + t) * 2) + l) ∧
    padLoop l r out start cnt ((start + t) * 2 + 1) =
      clamp16 (out ((start + t) * 2 + 1) + r) := by
  induction cnt generalizing out start t with
  | zero => omega
  | succ n ih =>
    simp only [padLoop, NC_eq]
    cases t with
    | zero =>
      simp only [Nat.add_zero]
      rw [padLoop_out_lower l r _ (start + 1) n (start * 2) (by omega),
          padLoop_out_lower l r _ (start + 1) n (start * 2 + 1) (by omega)]
      have hne1 : start * 2 ≠ start * 2 + 1 := by omega
      have hne2 : start * 2 + 1 ≠ start * 2 := by omega
      constructor
      · simp [hne1]
      · simp [hne2]
    | succ u =>
      have hpos : (start + (u + 1)) * 2 = (start + 1 + u) * 2 := by omega
      rw [hpos]
      obtain ⟨e1, e2⟩ := ih
        (fun k => if k = start * 2 + 1 then
            clamp16 ((fun k2 => if k2 = start * 2 then clamp16 (out (start * 2) + l)
                      else out k2) (start * 2 + 1) + r)
          else (fun k2 => if k2 = start * 2 then clamp16 (out (start * 2) + l) else out k2) k)
        (start + 1) u (by omega)
      rw [e1, e2]
      constructor
      · simp only []
        rw [if_neg (by omega), if_neg (by omega)]
      · simp only []
        rw [if_neg (by omega), if_neg (by omega)]

end AudioCommon

/-! C2: PushSamples clipping and the occupancy bound. -/

namespace AudioCommon

theorem MAX_SAMPLES_eq : MAX_SAMPLES = 65536 := rfl

theorem maskIdx_lt (k : Int) : maskIdx k < 131072 := by
  have h := maskIdx_le k
  have h2 : INDEX_MASK = 131071 := rfl
  omega

theorem maskIdx_add_nat (W : Int) (j : Nat) :
    maskIdx (W + (j : Int)) = (maskIdx W + j) % 131072 := by
  rw [maskIdx_eq, maskIdx_eq]
  have h1 : 0 ≤ W % (131072 : Int) := Int.emod_nonneg W (by norm_num)
  have h2 : W % (131072 : Int) < 131072 := Int.emod_lt_of_pos W (by norm_num)
  have h3 : 0 ≤ (W + (j : Int)) % (131072 : Int) := Int.emod_nonneg _ (by norm_num)
  have h4 : (W + (j : Int)) % (131072 : Int) < 131072 := Int.emod_lt_of_pos _ (by norm_num)
  omega

theorem SamplesDifference_le (W R : Int) (mF rG : ℚ) :
    SamplesDifference W R mF rG ≤ 131072 := by
  simp only [SamplesDifference]
  have h := Nat.and_le_right (n := u32wrap (W - GetNextIndexR R mF rG)) (m := INDEX_MASK)
  have h2 : INDEX_MASK = 131071 := rfl
  have h3 : MAX_SAMPLES * NC = 131072 := rfl
  split_ifs <;> omega

/-- C2 (amended): a push clips to the free space measured by
`SamplesDifference` - the code's own occupancy measure, which wraps the
raw index difference modulo the ring and pre-deducts the consumer's
pending advance `e = NC * u32(fract + rate)`.  From any state: the read
index and fract are untouched, the write index alone advances and by
exactly `NC` times the copied frame count
`min num_samples (MAX_SAMPLES - fifo_samples / NC)`, the copied frames
land at the masked ring slots following `indexW`, and the measured
occupancy plus the copied shorts never exceeds the capacity.  The spec's
raw-occupancy invariant `0 ≤ indexW - indexR ≤ capacity` is false: see
the counterexample, which reaches 131074 and then 262144. -/
theorem claim_C2 (f : MixerFifo) (env : MixerEnv) (samples : Nat → Int) (num_samples : Nat)
    (hnum : num_samples ≠ 0) :
    (f.PushSamples env samples num_samples false).indexR = f.indexR ∧
    (f.PushSamples env samples num_samples false).fract = f.fract ∧
    (f.PushSamples env samples num_samples false).indexW =
      f.indexW + ((min num_samples (MAX_SAMPLES -
        SamplesDifference f.indexW f.indexR f.fract
          (f.input_sample_rate * env.speed / env.sample_rate) / NC)) * NC : Int) ∧
    (∀ j < (min num_samples (MAX_SAMPLES -
        SamplesDifference f.indexW f.indexR f.fract
          (f.input_sample_rate * env.speed / env.sample_rate) / NC)) * NC,
      (f.PushSamples env samples num_samples false).buffer (maskIdx (f.indexW + (j : Int))) =
        samples j) ∧
    ((2 : Nat) ∣ SamplesDifference f.indexW f.indexR f.fract
        (f.input_sample_rate * env.speed / env.sample_rate) →
      (min num_samples (MAX_SAMPLES -
        SamplesDifference f.indexW f.indexR f.fract
          (f.input_sample_rate * env.speed / env.sample_rate) / NC)) * NC +
        SamplesDifference f.indexW f.indexR f.fract
          (f.input_sample_rate * env.speed / env.sample_rate) ≤ MAX_SAMPLES * NC) := by
  set rateG := f.input_sample_rate * env.speed / env.sample_rate with hrateG
  set SD := SamplesDifference f.indexW f.indexR f.fract rateG with hSDdef
  have hle : SD ≤ 131072 := SamplesDifference_le f.indexW f.indexR f.fract rateG
  have harith : (if 131072 < num_samples * 2 + SD then 65536 - SD / 2 else num_samples) =
      min num_samples (65536 - SD / 2) := by
    split_ifs with hc
    · omega
    · omega
  have hW : (f.PushSamples env samples num_samples false).indexW =
      f.indexW + ((min num_samples (65536 - SD / 2)) * 2 : Int) := by
    simp only [MixerFifo.PushSamples]
    rw [if_neg (by simp [hnum])]
    simp only [← hrateG, ← hSDdef, NC_eq, MAX_SAMPLES_eq]
    rw [harith]
    norm_num
  have hR : (f.PushSamples env samples num_samples false).indexR = f.indexR := by
    simp only [MixerFifo.PushSamples]
    split_ifs <;> rfl
  have hF : (f.PushSamples env samples num_samples false).fract = f.fract := by
    simp only [MixerFifo.PushSamples]
    split_ifs <;> rfl
  have hB : ∀ j < (min num_samples (65536 - SD / 2)) * 2,
      (f.PushSamples env samples num_samples false).buffer (maskIdx (f.indexW + (j : Int))) =
        samples j := by
    intro j hj
    simp only [MixerFifo.PushSamples]
    rw [if_neg (by simp [hnum])]
    simp only [← hrateG, ← hSDdef, NC_eq, MAX_SAMPLES_eq]
    rw [harith]
    have hjlt : j < 131072 := by omega
    rw [maskIdx_add_nat]
    have hbase : maskIdx f.indexW < 131072 := maskIdx_lt f.indexW
    rw [if_pos (by omega)]
    congr 1
    omega
  have hmin : min num_samples (MAX_SAMPLES - SD / NC) = min num_samples (65536 - SD / 2) := by
    rw [NC_eq, MAX_SAMPLES_eq]
  rw [hmin]
  refine ⟨hR, hF, hW, hB, ?_⟩
  intro hdvd
  simp only [NC_eq, MAX_SAMPLES_eq]
  omega

/-- State after the raw-occupancy counterexample sequence: from a fresh
FIFO at equal rates and speed 1, push 65536 frames (fills the ring
exactly), mix one frame (leaves `fract = 0`, `indexR = 0`), push one more
frame.  `SamplesDifference` pre-deducts the pending advance
`u32(0 + 1) * NC = 2`, so this last push is not clipped. -/
def c2s3 : MixerFifo :=
  ((fifo0.PushSamples ⟨48000, 1⟩ (fun _ => 0) 65536 false).Mix ⟨48000, 1⟩
    (fun _ => 0) (fun _ => 0) 1 false).fifo.PushSamples ⟨48000, 1⟩ (fun _ => 0) 1 false

/-- One further push of 65535 frames at playback speed 1/2 (pending
advance `u32(0 + 1/2) * NC = 0`): the wrapped measurement sees occupancy
2, so the push is again not clipped. -/
def c2s4 : MixerFifo := c2s3.PushSamples ⟨48000, 1/2⟩ (fun _ => 0) 65535 false

/-- C2 (counterexample): the Push 65536 / Mix 1 / Push 1 sequence drives
`indexW - indexR` to 131074, above the capacity `MAX_SAMPLES * NC =
131072`, and the further push of `c2s4` - with zero pending advance -
drives it to 262144, twice the capacity: the claimed invariant
`0 ≤ indexW - indexR ≤ capacity` after any sequence of Push and Mix is
false, and no bound of the form capacity plus the pending advance repairs
it. -/
theorem claim_C2_counterexample :
    c2s3.indexW - c2s3.indexR = 131074 ∧
    ¬(c2s3.indexW - c2s3.indexR ≤ (MAX_SAMPLES * NC : Int)) ∧
    c2s4.indexW - c2s4.indexR = 262144 := by
  refine ⟨?_, ?_, ?_⟩
  · with_unfolding_all decide
  · with_unfolding_all decide
  · with_unfolding_all decide

/-- The FIFO used by the C2 witness: fresh state with two buffered frames. -/
def fifoC2 : MixerFifo :=
  { buffer := fun _ => 0, indexW := 4, indexR := 0, fract := -1, backwards_fract := 0,
    backwards_indexR := 0, last_output_sample_l := 0, last_output_sample_r := 0,
    constantly_pushed := true, currently_pushed := true, input_sample_rate := 48000,
    lVolume := 256, rVolume := 256 }

/-- C2 witness for the amended theorem: two buffered frames, push one
frame; the write index advances by the clipped count. -/
theorem claim_C2_witness :
    ((1 : Nat) ≠ 0) ∧
    (fifoC2.PushSamples ⟨48000, 1⟩ (fun _ => 0) 1 false).indexW =
      fifoC2.indexW +
      ((min 1 (MAX_SAMPLES -
        SamplesDifference fifoC2.indexW fifoC2.indexR fifoC2.fract
          (fifoC2.input_sample_rate * (⟨48000, 1⟩ : MixerEnv).speed /
            (⟨48000, 1⟩ : MixerEnv).sample_rate) / NC)) * NC : Int) :=
  ⟨one_ne_zero,
   (claim_C2 fifoC2 ⟨48000, 1⟩ (fun _ => 0) 1 one_ne_zero).2.2.1⟩

end AudioCommon

/-! Bridge lemmas from `CubicInterpolation` to the loop lemmas, and the
forward-pass abbreviation used to state the underrun claims. -/

namespace AudioCommon

theorem ciLoop_i_le_add (P : CIParams) (fuel : Nat) (s : CILoop) :
    (ciLoop P fuel s).i ≤ s.i + fuel := by
  induction fuel generalizing s with
  | zero => exact le_refl _
  | succ n ih =>
    simp only [ciLoop]
    split_ifs with hg
    · omega
    · have := ih (ciStep P s)
      rw [ciStep_i] at this
      omega

theorem CubicInterpolation_count_le (scratch buffer : Nat → Int) (mF rG : ℚ)
    (out : Nat → Int) (base num : Nat) (rate : ℚ) (iR iW : Int) (ls rs lV rV : Int)
    (fw : Bool) (fr : ℚ) :
    (CubicInterpolation scratch buffer mF rG out base num rate iR iW ls rs lV rV fw fr).count ≤
      num := by
  simp only [CubicInterpolation]
  refine le_trans (ciLoop_i_le_add _ num _) ?_
  simp
theorem CubicInterpolation_out_upper (scratch buffer : Nat → Int) (mF rG : ℚ)
    (out : Nat → Int) (base num : Nat) (rate : ℚ) (iR iW : Int) (ls rs lV rV : Int)
    (fw : Bool) (fr : ℚ) (j : Nat)
    (hj : base +
      (CubicInterpolation scratch buffer mF rG out base num rate iR iW ls rs lV rV fw fr).count
        * 2 ≤ j) :
    (CubicInterpolation scratch buffer mF rG out base num rate iR iW ls rs lV rV fw fr).out j =
      out j := by
  simp only [CubicInterpolation] at hj ⊢
  exact ciLoop_out_upper _ _ _ _ hj

theorem CubicInterpolation_out_lower (scratch buffer : Nat → Int) (mF rG : ℚ)
    (out : Nat → Int) (base num : Nat) (rate : ℚ) (iR iW : Int) (ls rs lV rV : Int)
    (fw : Bool) (fr : ℚ) (j : Nat) (hj : j < base) :
    (CubicInterpolation scratch buffer mF rG out base num rate iR iW ls rs lV rV fw fr).out j =
      out j := by
  simp only [CubicInterpolation]
  refine ciLoop_out_lower _ _ _ _ ?_
  simpa using hj

theorem CubicInterpolation_last (scratch buffer : Nat → Int) (mF rG : ℚ)
    (out : Nat → Int) (base num : Nat) (rate : ℚ) (iR iW : Int) (ls rs lV rV : Int)
    (fw : Bool) (fr : ℚ)
    (h : 0 <
      (CubicInterpolation scratch buffer mF rG out base num rate iR iW ls rs lV rV fw fr).count) :
    (CubicInterpolation scratch buffer mF rG out base num rate iR iW ls rs lV rV fw fr).out
        (base +
          ((CubicInterpolation scratch buffer mF rG out base num rate iR iW ls rs lV rV fw
            fr).count - 1) * 2) =
      clamp16 (out (base +
          ((CubicInterpolation scratch buffer mF rG out base num rate iR iW ls rs lV rV fw
            fr).count - 1) * 2) +
        (CubicInterpolation scratch buffer mF rG out base num rate iR iW ls rs lV rV fw
          fr).l_s) ∧
    (CubicInterpolation scratch buffer mF rG out base num rate iR iW ls rs lV rV fw fr).out
        (base +
          ((CubicInterpolation scratch buffer mF rG out base num rate iR iW ls rs lV rV fw
            fr).count - 1) * 2 + 1) =
      clamp16 (out (base +
          ((CubicInterpolation scratch buffer mF rG out base num rate iR iW ls rs lV rV fw
            fr).count - 1) * 2 + 1) +
        (CubicInterpolation scratch buffer mF rG out base num rate iR iW ls rs lV rV fw
          fr).r_s) := by
  simp only [CubicInterpolation] at h ⊢
  exact ciLoop_last _ _ _ h

/-- The forward interpolation pass performed by `MixerFifo::Mix`
(Mixer.cpp:109-110), with the argument expressions as written there. -/
def fwdPass (f : MixerFifo) (env : MixerEnv) (scratch out : Nat → Int) (n : Nat)
    (stretching : Bool) : CIResult :=
  CubicInterpolation scratch f.buffer f.fract
    (f.input_sample_rate * env.speed / env.sample_rate) out 0 n
    (f.input_sample_rate * (if stretching = true then 1 else env.speed) / env.sample_rate)
    f.indexR f.indexW f.last_output_sample_r f.last_output_sample_r f.lVolume f.rVolume
    true f.fract

theorem Mix_count (f : MixerFifo) (env : MixerEnv) (scratch out : Nat → Int) (n : Nat)
    (s : Bool) :
    (f.Mix env scratch out n s).count = (fwdPass f env scratch out n s).count := by
  simp only [MixerFifo.Mix, fwdPass]
  split_ifs <;> rfl

theorem fwdPass_def (f : MixerFifo) (env : MixerEnv) (scratch out : Nat → Int) (n : Nat)
    (s : Bool) :
    fwdPass f env scratch out n s =
      CubicInterpolation scratch f.buffer f.fract
        (f.input_sample_rate * env.speed / env.sample_rate) out 0 n
        (f.input_sample_rate * (if s = true then 1 else env.speed) / env.sample_rate)
        f.indexR f.indexW f.last_output_sample_r f.last_output_sample_r f.lVolume f.rVolume
        true f.fract := rfl

theorem Mix_padding (f : MixerFifo) (env : MixerEnv) (scratch out : Nat → Int) (n : Nat)
    (s : Bool)
    (hnot : ¬(f.constantly_pushed = true ∧ s = false))
    (hkn : (fwdPass f env scratch out n s).count < n)
    (hcur : f.constantly_pushed = true ∨ f.currently_pushed = true) :
    (f.Mix env scratch out n s).out =
      padLoop (fwdPass f env scratch out n s).l_s (fwdPass f env scratch out n s).r_s
        (fwdPass f env scratch out n s).out (fwdPass f env scratch out n s).count
        (n - (fwdPass f env scratch out n s).count) ∧
    (f.Mix env scratch out n s).fifo.last_output_sample_l =
      (fwdPass f env scratch out n s).l_s ∧
    (f.Mix env scratch out n s).fifo.last_output_sample_r =
      (fwdPass f env scratch out n s).r_s := by
  simp only [MixerFifo.Mix]
  rw [← fwdPass_def]
  have hne : ¬(0 < n - (fwdPass f env scratch out n s).count ∧
      f.constantly_pushed = true ∧ s = false) := fun h => hnot ⟨h.2.1, h.2.2⟩
  have hpo : 0 < n - (fwdPass f env scratch out n s).count ∧
      (f.constantly_pushed = true ∨ f.currently_pushed = true) := ⟨by omega, hcur⟩
  rw [if_neg hne, if_pos hpo]
  exact ⟨rfl, rfl, rfl⟩

end AudioCommon

/-! C6: the padding branch of `MixerFifo::Mix`. -/

namespace AudioCommon

theorem fwdPass_out_upper (f : MixerFifo) (env : MixerEnv) (scratch out : Nat → Int)
    (n : Nat) (s : Bool) (j : Nat)
    (hj : (fwdPass f env scratch out n s).count * 2 ≤ j) :
    (fwdPass f env scratch out n s).out j = out j := by
  rw [fwdPass_def] at hj ⊢
  exact CubicInterpolation_out_upper _ _ _ _ _ _ _ _ _ _ _ _ _ _ _ _ j (by omega)

theorem fwdPass_last (f : MixerFifo) (env : MixerEnv) (scratch out : Nat → Int)
    (n : Nat) (s : Bool) (h : 0 < (fwdPass f env scratch out n s).count) :
    (fwdPass f env scratch out n s).out (((fwdPass f env scratch out n s).count - 1) * 2) =
      clamp16 (out (((fwdPass f env scratch out n s).count - 1) * 2) +
        (fwdPass f env scratch out n s).l_s) ∧
    (fwdPass f env scratch out n s).out
        (((fwdPass f env scratch out n s).count - 1) * 2 + 1) =
      clamp16 (out (((fwdPass f env scratch out n s).count - 1) * 2 + 1) +
        (fwdPass f env scratch out n s).r_s) := by
  rw [fwdPass_def] at h ⊢
  have hle := CubicInterpolation_last _ _ _ _ _ _ _ _ _ _ _ _ _ _ _ _ h
  simpa using hle

/-- C6 (amended): for a FIFO that is not constantly pushed but currently
pushed - or constantly pushed while stretching - when `Mix` produces
`0 < k < n` frames, each remaining frame receives the last produced left
and right samples (the stored `m_last_output_samples`) added into the
existing output value and clamped; with a pre-zeroed buffer every
remaining frame equals the last produced frame on both channels.  The
restriction `k > 0` is forced by the counterexample: with `k = 0` the
padding adds the previous call's right sample to both channels. -/
theorem claim_C6 (f : MixerFifo) (env : MixerEnv) (scratch out : Nat → Int) (n : Nat)
    (s : Bool)
    (hcase : (f.constantly_pushed = false ∧ f.currently_pushed = true) ∨
             (f.constantly_pushed = true ∧ s = true))
    (hk : 0 < (f.Mix env scratch out n s).count)
    (hkn : (f.Mix env scratch out n s).count < n) :
    (∀ i, (f.Mix env scratch out n s).count ≤ i → i < n →
      (f.Mix env scratch out n s).out (i * 2) =
        clamp16 (out (i * 2) + (f.Mix env scratch out n s).fifo.last_output_sample_l) ∧
      (f.Mix env scratch out n s).out (i * 2 + 1) =
        clamp16 (out (i * 2 + 1) + (f.Mix env scratch out n s).fifo.last_output_sample_r)) ∧
    ((∀ k2, out k2 = 0) → ∀ i, (f.Mix env scratch out n s).count ≤ i → i < n →
      (f.Mix env scratch out n s).out (i * 2) =
        (f.Mix env scratch out n s).out (((f.Mix env scratch out n s).count - 1) * 2) ∧
      (f.Mix env scratch out n s).out (i * 2 + 1) =
        (f.Mix env scratch out n s).out (((f.Mix env scratch out n s).count - 1) * 2 + 1)) := by
  have hcnt := Mix_count f env scratch out n s
  have hnot : ¬(f.constantly_pushed = true ∧ s = false) := by
    rcases hcase with ⟨h1, h2⟩ | ⟨h1, h2⟩ <;> simp [h1, h2]
  have hcur : f.constantly_pushed = true ∨ f.currently_pushed = true := by
    rcases hcase with ⟨h1, h2⟩ | ⟨h1, h2⟩
    · exact Or.inr h2
    · exact Or.inl h1
  rw [hcnt] at hk hkn
  obtain ⟨hout, hl, hr⟩ := Mix_padding f env scratch out n s hnot hkn hcur
  constructor
  · intro i h1 h2
    rw [hcnt] at h1
    rw [hout, hl, hr]
    have hpos0 : i * 2 = ((fwdPass f env scratch out n s).count +
        (i - (fwdPass f env scratch out n s).count)) * 2 := by omega
    obtain ⟨e1, e2⟩ := padLoop_val (fwdPass f env scratch out n s).l_s
      (fwdPass f env scratch out n s).r_s (fwdPass f env scratch out n s).out
      (fwdPass f env scratch out n s).count (n - (fwdPass f env scratch out n s).count)
      (i - (fwdPass f env scratch out n s).count) (by omega)
    rw [hpos0, e1, e2]
    rw [fwdPass_out_upper f env scratch out n s
          (((fwdPass f env scratch out n s).count +
            (i - (fwdPass f env scratch out n s).count)) * 2) (by omega),
        fwdPass_out_upper f env scratch out n s
          (((fwdPass f env scratch out n s).count +
            (i - (fwdPass f env scratch out n s).count)) * 2 + 1) (by omega)]
    constructor <;> trivial
  · intro hz i h1 h2
    rw [hcnt] at h1
    rw [hcnt, hout]
    obtain ⟨g1, g2⟩ := fwdPass_last f env scratch out n s (by omega)
    rw [padLoop_out_lower (fwdPass f env scratch out n s).l_s
          (fwdPass f env scratch out n s).r_s (fwdPass f env scratch out n s).out
          (fwdPass f env scratch out n s).count (n - (fwdPass f env scratch out n s).count)
          (((fwdPass f env scratch out n s).count - 1) * 2) (by omega),
        padLoop_out_lower (fwdPass f env scratch out n s).l_s
          (fwdPass f env scratch out n s).r_s (fwdPass f env scratch out n s).out
          (fwdPass f env scratch out n s).count (n - (fwdPass f env scratch out n s).count)
          (((fwdPass f env scratch out n s).count - 1) * 2 + 1) (by omega)]
    rw [g1, g2]
    have hpos0 : i * 2 = ((fwdPass f env scratch out n s).count +
        (i - (fwdPass f env scratch out n s).count)) * 2 := by omega
    obtain ⟨e1, e2⟩ := padLoop_val (fwdPass f env scratch out n s).l_s
      (fwdPass f env scratch out n s).r_s (fwdPass f env scratch out n s).out
      (fwdPass f env scratch out n s).count (n - (fwdPass f env scratch out n s).count)
      (i - (fwdPass f env scratch out n s).count) (by omega)
    rw [hpos0, e1, e2]
    rw [fwdPass_out_upper f env scratch out n s
          (((fwdPass f env scratch out n s).count +
            (i - (fwdPass f env scratch out n s).count)) * 2) (by omega),
        fwdPass_out_upper f env scratch out n s
          (((fwdPass f env scratch out n s).count +
            (i - (fwdPass f env scratch out n s).count)) * 2 + 1) (by omega)]
    simp only [hz]
    constructor <;> trivial

/-- The FIFO of the C6 counterexample: not constantly pushed, currently
pushed, 6 buffered frames, ring frames 3 = (b6, b7) holding the
byte-swapped values (7, 5). -/
def fifoC6 : MixerFifo :=
  { buffer := fun k => if k = 7 then 1280 else if k = 6 then 1792 else 0, indexW := 12,
    indexR := 0, fract := -1, backwards_fract := 0, backwards_indexR := 0,
    last_output_sample_l := 0, last_output_sample_r := 0, constantly_pushed := false,
    currently_pushed := true, input_sample_rate := 48000, lVolume := 256, rVolume := 256 }

/-- First call of the C6 counterexample trace: full production of 2 frames. -/
def c6r1 : MixResult := fifoC6.Mix ⟨48000, 1⟩ (fun _ => 0) (fun _ => 0) 2 false

/-- Second call: underrun with one produced frame; stores the last produced
samples (5, 7). -/
def c6r2 : MixResult := c6r1.fifo.Mix ⟨48000, 1⟩ c6r1.scratch (fun _ => 0) 5 false

/-- Third call: no frame produced (`k = 0`), padding branch runs. -/
def c6r3 : MixResult := c6r2.fifo.Mix ⟨48000, 1⟩ c6r2.scratch (fun _ => 0) 1 false

/-- C6 (counterexample): the last produced left/right samples are (5, 7),
but in the following call - which produces `k = 0 < n` frames on a
currently-pushed, not-constantly-pushed FIFO - the padding writes 7 to the
left channel (both padding registers are seeded from
`m_last_output_samples[1]`, Mixer.cpp:105-106), not the last produced left
sample 5: the claim as stated fails at `k = 0`. -/
theorem claim_C6_counterexample :
    c6r2.fifo.last_output_sample_l = 5 ∧ c6r2.fifo.last_output_sample_r = 7 ∧
    c6r2.count = 1 ∧ c6r3.count = 0 ∧ c6r3.out 0 = 7 ∧
    c6r3.out 0 ≠ clamp16 (0 + 5) := by
  refine ⟨?_, ?_, ?_, ?_, ?_, ?_⟩
  · with_unfolding_all decide
  · with_unfolding_all decide
  · with_unfolding_all decide
  · with_unfolding_all decide
  · with_unfolding_all decide
  · with_unfolding_all decide

/-- The FIFO of the C6 witness: not constantly pushed, currently pushed,
5 buffered frames. -/
def fifoC6w : MixerFifo :=
  { buffer := fun k => if k = 5 then 1280 else if k = 4 then 1792 else 0, indexW := 10,
    indexR := 0, fract := -1, backwards_fract := 0, backwards_indexR := 0,
    last_output_sample_l := 0, last_output_sample_r := 0, constantly_pushed := false,
    currently_pushed := true, input_sample_rate := 48000, lVolume := 256, rVolume := 256 }

/-- C6 witness: request 3 frames, 2 produced, the padded third frame adds
the stored last samples into the (zero) output. -/
theorem claim_C6_witness :
    0 < (fifoC6w.Mix ⟨48000, 1⟩ (fun _ => 0) (fun _ => 0) 3 false).count ∧
    (∀ i, (fifoC6w.Mix ⟨48000, 1⟩ (fun _ => 0) (fun _ => 0) 3 false).count ≤ i → i < 3 →
      (fifoC6w.Mix ⟨48000, 1⟩ (fun _ => 0) (fun _ => 0) 3 false).out (i * 2) =
        clamp16 (0 + (fifoC6w.Mix ⟨48000, 1⟩ (fun _ => 0) (fun _ => 0) 3
          false).fifo.last_output_sample_l) ∧
      (fifoC6w.Mix ⟨48000, 1⟩ (fun _ => 0) (fun _ => 0) 3 false).out (i * 2 + 1) =
        clamp16 (0 + (fifoC6w.Mix ⟨48000, 1⟩ (fun _ => 0) (fun _ => 0) 3
          false).fifo.last_output_sample_r)) :=
  ⟨by with_unfolding_all decide,
   (claim_C6 fifoC6w ⟨48000, 1⟩ (fun _ => 0) (fun _ => 0) 3 false (Or.inl ⟨rfl, rfl⟩)
     (by with_unfolding_all decide) (by with_unfolding_all decide)).1⟩

end AudioCommon

/-! C4: the reverse-play branch of `MixerFifo::Mix`. -/

namespace AudioCommon

/-- The backwards interpolation pass performed by the reverse-play branch
(Mixer.cpp:146-188): same cubic routine over the same ring contents,
direction -1, cursor initialised to the last-read position plus the
interpolation window, fract `1 - m_fract`, rate without the speed factor,
writing after the `count` forward frames. -/
def bwdPass (f : MixerFifo) (env : MixerEnv) (scratch out : Nat → Int) (n : Nat) : CIResult :=
  CubicInterpolation (fwdPass f env scratch out n false).scratch f.buffer (-1)
    (f.input_sample_rate * env.speed / env.sample_rate)
    (fwdPass f env scratch out n false).out ((fwdPass f env scratch out n false).count * NC)
    (n - (fwdPass f env scratch out n false).count)
    (f.input_sample_rate / env.sample_rate)
    ((fwdPass f env scratch out n false).indexR + (INTERP_SAMPLES * NC : Int)) f.indexW
    (fwdPass f env scratch out n false).l_s (fwdPass f env scratch out n false).r_s
    f.lVolume f.rVolume false (1 - (fwdPass f env scratch out n false).fract)

theorem bwdPass_count_le (f : MixerFifo) (env : MixerEnv) (scratch out : Nat → Int)
    (n : Nat) :
    (bwdPass f env scratch out n).count ≤ n - (fwdPass f env scratch out n false).count := by
  simp only [bwdPass]
  exact CubicInterpolation_count_le _ _ _ _ _ _ _ _ _ _ _ _ _ _ _ _

theorem bwdPass_out_upper (f : MixerFifo) (env : MixerEnv) (scratch out : Nat → Int)
    (n : Nat) (j : Nat) (hj : n * 2 ≤ j) :
    (bwdPass f env scratch out n).out j = (fwdPass f env scratch out n false).out j := by
  have hcle := bwdPass_count_le f env scratch out n
  have hfc : (fwdPass f env scratch out n false).count ≤ n := by
    simp only [fwdPass]
    exact CubicInterpolation_count_le _ _ _ _ _ _ _ _ _ _ _ _ _ _ _ _
  simp only [bwdPass] at hcle ⊢
  refine CubicInterpolation_out_upper _ _ _ _ _ _ _ _ _ _ _ _ _ _ _ _ j ?_
  simp only [NC_eq] at hcle ⊢
  omega

theorem bwdPass_out_lower (f : MixerFifo) (env : MixerEnv) (scratch out : Nat → Int)
    (n : Nat) (j : Nat) (hj : j < (fwdPass f env scratch out n false).count * 2) :
    (bwdPass f env scratch out n).out j = (fwdPass f env scratch out n false).out j := by
  simp only [bwdPass]
  refine CubicInterpolation_out_lower _ _ _ _ _ _ _ _ _ _ _ _ _ _ _ _ j ?_
  simp only [NC_eq]
  omega

theorem Mix_backwards (f : MixerFifo) (env : MixerEnv) (scratch out : Nat → Int) (n : Nat)
    (hc : f.constantly_pushed = true)
    (hk : 0 < (fwdPass f env scratch out n false).count)
    (hkn : (fwdPass f env scratch out n false).count < n) :
    (f.Mix env scratch out n false).out = (bwdPass f env scratch out n).out ∧
    (f.Mix env scratch out n false).fifo.backwards_indexR =
      (bwdPass f env scratch out n).indexR ∧
    (f.Mix env scratch out n false).fifo.backwards_fract =
      (bwdPass f env scratch out n).fract := by
  simp only [MixerFifo.Mix]
  rw [← fwdPass_def]
  have hne : (fwdPass f env scratch out n false).count ≠ n := by omega
  have hc1 : (fwdPass f env scratch out n false).count ≠ n ∧
      0 < (fwdPass f env scratch out n false).count := ⟨hne, hk⟩
  have hbr : 0 < n - (fwdPass f env scratch out n false).count ∧
      f.constantly_pushed = true ∧ True := ⟨by omega, hc, trivial⟩
  simp only [if_pos hc1, if_pos hne, if_pos hbr]
  simp only [bwdPass]
  exact ⟨trivial, trivial, trivial⟩

/-- Replace the ring contents of a FIFO. -/
def withBuffer (f : MixerFifo) (b : Nat → Int) : MixerFifo := { f with buffer := b }

theorem swapScratch_congr (scratch b b2 : Nat → Int) (first direction : Int) (steps : Nat)
    (hb : ∀ kk, kk ≤ INDEX_MASK → b kk = b2 kk) :
    swapScratch scratch b first direction steps = swapScratch scratch b2 first direction steps := by
  funext k
  simp only [swapScratch]
  split_ifs with hcov
  · obtain ⟨j, hj, hk⟩ := hcov
    have hle : k ≤ INDEX_MASK := by
      rcases hk with hk | hk
      · rw [hk]; exact maskIdx_le _
      · rw [hk]; exact maskIdx_le _
    rw [hb k hle]
  · rfl

theorem CubicInterpolation_congr (scratch b b2 : Nat → Int) (mF rG : ℚ)
    (out : Nat → Int) (base num : Nat) (rate : ℚ) (iR iW : Int) (ls rs lV rV : Int)
    (fw : Bool) (fr : ℚ) (hb : ∀ kk, kk ≤ INDEX_MASK → b kk = b2 kk) :
    CubicInterpolation scratch b mF rG out base num rate iR iW ls rs lV rV fw fr =
      CubicInterpolation scratch b2 mF rG out base num rate iR iW ls rs lV rV fw fr := by
  simp only [CubicInterpolation]
  rw [swapScratch_congr scratch b b2 _ _ _ hb]

theorem Mix_buffer_congr (f : MixerFifo) (b2 : Nat → Int) (env : MixerEnv)
    (scratch out : Nat → Int) (n : Nat) (s : Bool)
    (hb : ∀ kk, kk ≤ INDEX_MASK → f.buffer kk = b2 kk) :
    ((withBuffer f b2).Mix env scratch out n s).out = (f.Mix env scratch out n s).out ∧
    ((withBuffer f b2).Mix env scratch out n s).count = (f.Mix env scratch out n s).count := by
  have hb2 : ∀ kk, kk ≤ INDEX_MASK → b2 kk = f.buffer kk := fun kk hkk => (hb kk hkk).symm
  simp only [MixerFifo.Mix, withBuffer]
  rw [CubicInterpolation_congr scratch b2 f.buffer _ _ _ _ _ _ _ _ _ _ _ _ _ _ hb2]
  rw [CubicInterpolation_congr _ b2 f.buffer _ _ _ _ _ _ _ _ _ _ _ _ _ _ hb2]
  split_ifs <;> exact ⟨rfl, rfl⟩

/-- C4: whenever `Mix` on a constantly-pushed, non-stretching FIFO produces
`0 < k < n` frames, the reverse-play branch runs: the output is the same
cubic routine applied with direction -1 over the same ring contents, with
the backwards cursor initialised to the last-read position plus
`INTERP_SAMPLES * NC` and fract `1 - m_fract` (see `bwdPass`); the
backwards cursor and fract are stored back; no write goes past the
requested `n` frames and no forward frame below `k` is touched; and every
ring access is reduced by the capacity mask - replacing the ring by any
buffer that agrees on the masked range `[0, INDEX_MASK]` leaves the output
and the produced count unchanged. -/
theorem claim_C4 (f : MixerFifo) (env : MixerEnv) (scratch out : Nat → Int) (n : Nat)
    (hc : f.constantly_pushed = true)
    (hk : 0 < (f.Mix env scratch out n false).count)
    (hkn : (f.Mix env scratch out n false).count < n) :
    (f.Mix env scratch out n false).out = (bwdPass f env scratch out n).out ∧
    (f.Mix env scratch out n false).fifo.backwards_indexR =
      (bwdPass f env scratch out n).indexR ∧
    (f.Mix env scratch out n false).fifo.backwards_fract =
      (bwdPass f env scratch out n).fract ∧
    (∀ j, n * 2 ≤ j → (f.Mix env scratch out n false).out j = out j) ∧
    (∀ j, j < (f.Mix env scratch out n false).count * 2 →
      (f.Mix env scratch out n false).out j = (fwdPass f env scratch out n false).out j) ∧
    (∀ b2 : Nat → Int, (∀ kk, kk ≤ INDEX_MASK → f.buffer kk = b2 kk) →
      ((withBuffer f b2).Mix env scratch out n false).out =
        (f.Mix env scratch out n false).out ∧
      ((withBuffer f b2).Mix env scratch out n false).count =
        (f.Mix env scratch out n false).count) := by
  have hcnt := Mix_count f env scratch out n false
  rw [hcnt] at hk hkn
  obtain ⟨ho, hbi, hbf⟩ := Mix_backwards f env scratch out n hc hk hkn
  refine ⟨ho, hbi, hbf, ?_, ?_, ?_⟩
  · intro j hj
    rw [ho, bwdPass_out_upper f env scratch out n j hj]
    exact fwdPass_out_upper f env scratch out n false j (by omega)
  · intro j hj
    rw [hcnt] at hj
    rw [ho]
    exact bwdPass_out_lower f env scratch out n j hj
  · intro b2 hb
    exact Mix_buffer_congr f b2 env scratch out n false hb

/-- The FIFO of the C4 witness: constantly pushed, 5 buffered frames. -/
def fifoC4w : MixerFifo :=
  { buffer := fun k => if k = 5 then 1280 else if k = 4 then 1792 else 0, indexW := 10,
    indexR := 0, fract := -1, backwards_fract := 0, backwards_indexR := 0,
    last_output_sample_l := 0, last_output_sample_r := 0, constantly_pushed := true,
    currently_pushed := true, input_sample_rate := 48000, lVolume := 256, rVolume := 256 }

/-- C4 witness: request 3 frames, 2 produced forwards, the third filled by
the reverse-play pass. -/
theorem claim_C4_witness :
    0 < (fifoC4w.Mix ⟨48000, 1⟩ (fun _ => 0) (fun _ => 0) 3 false).count ∧
    (fifoC4w.Mix ⟨48000, 1⟩ (fun _ => 0) (fun _ => 0) 3 false).count < 3 ∧
    (fifoC4w.Mix ⟨48000, 1⟩ (fun _ => 0) (fun _ => 0) 3 false).out =
      (bwdPass fifoC4w ⟨48000, 1⟩ (fun _ => 0) (fun _ => 0) 3).out :=
  ⟨by with_unfolding_all decide, by with_unfolding_all decide,
   (claim_C4 fifoC4w ⟨48000, 1⟩ (fun _ => 0) (fun _ => 0) 3 rfl
     (by with_unfolding_all decide) (by with_unfolding_all decide)).1⟩

end AudioCommon

/-! C9: WAV header round-trip. -/

namespace WaveFile

theorem encodeData_length (s : Nat → Int) (c : Nat) : (encodeData s c).length = 4 * c := by
  induction c with
  | zero => rfl
  | succ k ih =>
    simp only [encodeData, List.length_append, ih, encodeFrame8, u16le, List.length_cons,
      List.length_nil]
    omega

theorem dataBytes_length (ps : List ((Nat → Int) × Nat)) :
    (dataBytes ps).length = 4 * totalFrames ps := by
  induction ps with
  | nil => rfl
  | cons p ps ih =>
    simp only [dataBytes, totalFrames, List.length_append, encodeData_length, ih]
    omega

theorem AddStereo_same_rate (w : WaveState) (s : Nat → Int) (c R : Nat)
    (hs : w.skip_silence = false) (hr : w.current_sample_rate = R) :
    AddStereoSamplesBE w s c R =
      { w with file := w.file ++ encodeData s c, audio_size := w.audio_size + c * 4 } := by
  simp only [AddStereoSamplesBE, hs, hr]
  have h1 : ¬((false : Bool) = true ∧ ∀ i < c * 2, s i = 0) := by simp
  have h2 : ¬(R ≠ R) := by simp
  rw [if_neg h1, if_neg h2, hr, hs]

theorem runPushes_spec (ps : List ((Nat → Int) × Nat)) : ∀ (w : WaveState) (R : Nat),
    w.skip_silence = false → w.current_sample_rate = R →
    (runPushes w R ps).file = w.file ++ dataBytes ps ∧
    (runPushes w R ps).audio_size = w.audio_size + 4 * totalFrames ps := by
  induction ps with
  | nil =>
    intro w R hs hr
    simp [runPushes, dataBytes, totalFrames]
  | cons p ps ih =>
    intro w R hs hr
    simp only [runPushes]
    rw [AddStereo_same_rate w p.1 p.2 R hs hr]
    obtain ⟨h1, h2⟩ :=
      ih { w with file := w.file ++ encodeData p.1 p.2,
                  audio_size := w.audio_size + p.2 * 4 } R hs hr
    constructor
    · rw [h1]
      simp only [dataBytes]
      show (w.file ++ encodeData p.1 p.2) ++ dataBytes ps =
        w.file ++ (encodeData p.1 p.2 ++ dataBytes ps)
      rw [List.append_assoc]
    · rw [h2]
      show w.audio_size + p.2 * 4 + 4 * totalFrames ps =
        w.audio_size + 4 * totalFrames (p :: ps)
      simp only [totalFrames]
      omega

/-- The file contents after `Stop` patches the two size fields: the header
with offset 4 holding `A + 36` and offset 40 holding `A`, followed by the
converted data bytes. -/
def wavFinal (R A : Nat) (D : List Nat) : List Nat :=
  [82, 73, 70, 70] ++ u32le (A + 36) ++ [87, 65, 86, 69] ++ [102, 109, 116, 32] ++
  u32le 16 ++ u32le 0x00020001 ++ u32le R ++ u32le (R * 2 * 2) ++
  u32le 0x00100004 ++ [100, 97, 116, 97] ++ u32le A ++ D

theorem write32_header (R A : Nat) (D : List Nat) :
    write32At (write32At (header R ++ D) 4 (A + 36)) 40 A = wavFinal R A D := rfl

theorem wavFinal_read4 (R A : Nat) (D : List Nat) :
    readU32 (wavFinal R A D) 4 = (A + 36) % 256 + 256 * ((A + 36) / 256 % 256) +
      65536 * ((A + 36) / 65536 % 256) + 16777216 * ((A + 36) / 16777216 % 256) := rfl

theorem wavFinal_read40 (R A : Nat) (D : List Nat) :
    readU32 (wavFinal R A D) 40 = A % 256 + 256 * (A / 256 % 256) +
      65536 * (A / 65536 % 256) + 16777216 * (A / 16777216 % 256) := rfl

theorem wavFinal_read24 (R A : Nat) (D : List Nat) :
    readU32 (wavFinal R A D) 24 = R % 256 + 256 * (R / 256 % 256) +
      65536 * (R / 65536 % 256) + 16777216 * (R / 16777216 % 256) := rfl

theorem wavFinal_drop44 (R A : Nat) (D : List Nat) : (wavFinal R A D).drop 44 = D := rfl

theorem wavFinal_length (R A : Nat) (D : List Nat) :
    (wavFinal R A D).length = 44 + D.length := by
  simp only [wavFinal, u32le, List.length_append, List.length_cons, List.length_nil]

theorem readU32_round (v : Nat) (hv : v < 4294967296) :
    v % 256 + 256 * (v / 256 % 256) + 65536 * (v / 65536 % 256) +
      16777216 * (v / 16777216 % 256) = v := by
  omega

/-- C9: starting a dump at rate `R`, appending any sequence of pushes at
the same rate with silence skipping disabled, and stopping yields a file
whose 32-bit field at offset 4 is `4N + 36`, at offset 40 is `4N` (N the
total frames), at offset 24 (the fmt sample-rate field) is `R`; the bytes
after the 44-byte header are exactly the channel-flipped, byte-swapped
samples in push order, and the file length is `44 + 4N`. -/
theorem claim_C9 (R : Nat) (ps : List ((Nat → Int) × Nat))
    (hR : R < 4294967296) (hN : 4 * totalFrames ps + 36 < 4294967296) :
    readU32 (Stop (runPushes (Start R false) R ps)).file 4 = 4 * totalFrames ps + 36 ∧
    readU32 (Stop (runPushes (Start R false) R ps)).file 40 = 4 * totalFrames ps ∧
    readU32 (Stop (runPushes (Start R false) R ps)).file 24 = R ∧
    (Stop (runPushes (Start R false) R ps)).file.drop 44 = dataBytes ps ∧
    (Stop (runPushes (Start R false) R ps)).file.length = 44 + 4 * totalFrames ps := by
  obtain ⟨h1, h2⟩ := runPushes_spec ps (Start R false) R rfl rfl
  have hfile : (Stop (runPushes (Start R false) R ps)).file =
      wavFinal R (4 * totalFrames ps) (dataBytes ps) := by
    simp only [Stop]
    rw [h1, h2]
    show write32At (write32At (header R ++ dataBytes ps) 4 (0 + 4 * totalFrames ps + 36)) 40
      (0 + 4 * totalFrames ps) = wavFinal R (4 * totalFrames ps) (dataBytes ps)
    rw [Nat.zero_add]
    exact write32_header R (4 * totalFrames ps) (dataBytes ps)
  rw [hfile]
  refine ⟨?_, ?_, ?_, wavFinal_drop44 _ _ _, ?_⟩
  · rw [wavFinal_read4]
    exact readU32_round _ (by omega)
  · rw [wavFinal_read40]
    exact readU32_round _ (by omega)
  · rw [wavFinal_read24]
    exact readU32_round _ hR
  · rw [wavFinal_length, dataBytes_length]

/-- The pushes of the C9 witness: one push of a single frame. -/
def pushesC9 : List ((Nat → Int) × Nat) := [(fun i => if i = 0 then 258 else -2, 1)]

/-- C9 witness at a concrete dump of one frame at 48 kHz. -/
theorem claim_C9_witness :
    readU32 (Stop (runPushes (Start 48000 false) 48000 pushesC9)).file 4 =
      4 * totalFrames pushesC9 + 36 ∧
    readU32 (Stop (runPushes (Start 48000 false) 48000 pushesC9)).file 40 =
      4 * totalFrames pushesC9 ∧
    readU32 (Stop (runPushes (Start 48000 false) 48000 pushesC9)).file 24 = 48000 ∧
    (Stop (runPushes (Start 48000 false) 48000 pushesC9)).file.drop 44 = dataBytes pushesC9 ∧
    (Stop (runPushes (Start 48000 false) 48000 pushesC9)).file.length =
      44 + 4 * totalFrames pushesC9 ∧
    totalFrames pushesC9 = 1 := by
  have h := claim_C9 48000 pushesC9 (by decide) (by decide)
  exact ⟨h.1, h.2.1, h.2.2.1, h.2.2.2.1, h.2.2.2.2, rfl⟩

end WaveFile

/-! C1: exact passthrough at unity rate and volume. -/

namespace AudioCommon

theorem iteTrueArm {α : Sort _} (a b : α) : (if (true : Bool) = true then a else b) = a := rfl

theorem channelSum_taps0 (scr : Nat → Int) (iR off : Int) :
    channelSum scr (0, 1, 0, 0) iR 1 off = ((scr (maskIdx (iR + 2 + off)) : Int) : ℚ) := by
  simp only [channelSum]
  norm_num

theorem SamplesDifference_neg1 (W R : Int) (D : Nat) (hWR : W - R = (D : Int))
    (h1 : D ≤ 131072) :
    SamplesDifference W R (-1) 1 = D := by
  have hd : W - GetNextIndexR R (-1) 1 = (D : Int) := by
    rw [GetNextIndexR_of_neg R (-1) 1 (by norm_num)]
    exact hWR
  have h := SamplesDifference_eq_of W R (-1) 1 (D : Int) hd (by omega) (by omega)
  rw [h]
  omega

theorem SamplesDifference_fract0 (W R : Int) (D : Nat) (hWR : W - R = (D : Int))
    (h0 : 2 ≤ D) (h1 : D ≤ 131074) :
    SamplesDifference W R 0 1 = D - 2 := by
  have hg : GetNextIndexR R 0 1 = R + 2 := by
    rw [GetNextIndexR_of_nonneg R 0 1 (le_refl 0)]
    have e01 : (0 : ℚ) + 1 = 1 := by norm_num
    rw [e01, u32trunc_one]
    norm_num
  have hd : W - GetNextIndexR R 0 1 = (D : Int) - 2 := by
    rw [hg]
    omega
  have h := SamplesDifference_eq_of W R 0 1 ((D : Int) - 2) hd (by omega) (by omega)
  rw [h]
  omega

theorem swapScratch_cover (scratch buffer : Nat → Int) (first k : Int) (steps j : Nat)
    (hj : j < steps) (hk : k = first + 2 * (j : Int) ∨ k = first + 2 * (j : Int) + 1) :
    swapScratch scratch buffer first 1 steps (maskIdx k) = swap16 (buffer (maskIdx k)) := by
  simp only [swapScratch]
  rw [if_pos]
  refine ⟨j, hj, ?_⟩
  have harg : first + 1 * ((NC : Nat) : Int) * (j : Int) = first + 2 * (j : Int) := by
    simp only [NC_eq]
    push_cast
    ring
  rcases hk with hk | hk
  · exact Or.inl (by rw [hk, harg])
  · exact Or.inr (by rw [hk, ← harg])

/-- The expected output of the unity-rate passthrough: slot `k` holds the
byte-swapped ring sample two shorts (one frame) past `R + k`, the left
channel reading the odd tap. -/
def c1Exp (buffer : Nat → Int) (R : Int) (k : Nat) : Int :=
  if k % 2 = 0 then swap16 (buffer (maskIdx (R + (k : Int) + 3)))
  else swap16 (buffer (maskIdx (R + (k : Int) + 1)))

/-- The loop parameters of the unity-rate forward pass. -/
def c1P (scratch buffer : Nat → Int) (R W : Int) (steps : Nat) : CIParams :=
  { scratch := swapScratch scratch buffer R 1 steps, indexW := W, rate := 1, rateG := 1,
    mFract := -1, lVolume := 256, rVolume := 256, forwards := true, base := 0 }

/-- The loop state after `c ≥ 1` iterations of the unity-rate forward pass
over a ring holding `D` shorts past `R`. -/
def c1St (buffer out0 : Nat → Int) (R : Int) (D c : Nat) : CILoop :=
  { out := fun k => if k < 2 * c then c1Exp buffer R k else out0 k,
    indexR := R + 2 * (c : Int) - 2,
    fract := 0,
    l_s := c1Exp buffer R (2 * (c - 1)),
    r_s := c1Exp buffer R (2 * (c - 1) + 1),
    available := D - 2 * (c - 1),
    nextAvailable := D - 2 * c,
    i := c }

end AudioCommon

namespace AudioCommon

theorem c1_step (scratch buffer out0 : Nat → Int) (R W : Int) (steps D n c : Nat)
    (hD : W - R = (D : Int)) (hD1 : 2 * n + 6 ≤ D) (hD2 : D ≤ 131072)
    (hsteps : n < steps) (h0 : ∀ k, out0 k = 0) (hc : 1 ≤ c) (hcn : c < n) :
    ciStep (c1P scratch buffer R W steps) (c1St buffer out0 R D c) =
      c1St buffer out0 R D (c + 1) := by
  have e01 : (0 : ℚ) + 1 = 1 := by norm_num
  have e11 : (1 : ℚ) - 1 = 0 := by norm_num
  simp only [ciStep, c1P, c1St, iteTrueArm, if_true, e01, u32trunc_one, Nat.cast_one, e11,
    cubicWeights_zero, channelSum_taps0, roundAway_intCast, volume_unity, NC_eq,
    Nat.cast_ofNat, Nat.zero_add, mul_one, one_mul, add_zero, Nat.add_sub_cancel]
  have eIdx : R + 2 * (c : Int) - 2 + 2 = R + 2 * (c : Int) := by ring
  simp only [eIdx, CILoop.mk.injEq]
  refine ⟨?_, ?_, ?_, ?_, ?_, ?_, ?_, ?_⟩
  · funext k
    by_cases h1 : k = c * 2 + 1
    · subst h1
      rw [if_pos rfl, if_neg (by omega : ¬(c * 2 + 1 = c * 2)),
        if_neg (by omega : ¬(c * 2 + 1 < 2 * c)), h0 (c * 2 + 1),
        if_pos (by omega : c * 2 + 1 < 2 * (c + 1)), zero_add,
        swapScratch_cover scratch buffer R (R + 2 * (c : Int) + 2) steps (c + 1) (by omega)
          (Or.inl (by push_cast; ring)),
        clamp16_of_range _ (swap16_range _).1 (swap16_range _).2]
      simp only [c1Exp]
      rw [if_neg (by omega : ¬((c * 2 + 1) % 2 = 0))]
      exact congrArg (fun z => swap16 (buffer (maskIdx z))) (by push_cast; ring)
    · by_cases h2 : k = c * 2
      · subst h2
        rw [if_neg h1, if_pos rfl, if_neg (by omega : ¬(c * 2 < 2 * c)), h0 (c * 2),
          if_pos (by omega : c * 2 < 2 * (c + 1)), zero_add,
          swapScratch_cover scratch buffer R (R + 2 * (c : Int) + 2 + 1) steps (c + 1) (by omega)
            (Or.inr (by push_cast; ring)),
          clamp16_of_range _ (swap16_range _).1 (swap16_range _).2]
        simp only [c1Exp]
        rw [if_pos (by omega : (c * 2) % 2 = 0)]
        exact congrArg (fun z => swap16 (buffer (maskIdx z))) (by push_cast; ring)
      · rw [if_neg h1, if_neg h2]
        by_cases h3 : k < 2 * c
        · rw [if_pos h3, if_pos (by omega : k < 2 * (c + 1))]
        · rw [if_neg h3, if_neg (by omega : ¬(k < 2 * (c + 1)))]
  · push_cast
    ring
  · trivial
  · rw [swapScratch_cover scratch buffer R (R + 2 * (c : Int) + 2 + 1) steps (c + 1) (by omega)
      (Or.inr (by push_cast; ring))]
    simp only [c1Exp]
    rw [if_pos (by omega : (2 * c) % 2 = 0)]
    exact congrArg (fun z => swap16 (buffer (maskIdx z))) (by push_cast; ring)
  · rw [swapScratch_cover scratch buffer R (R + 2 * (c : Int) + 2) steps (c + 1) (by omega)
      (Or.inl (by push_cast; ring))]
    simp only [c1Exp]
    rw [if_neg (by omega : ¬((2 * c + 1) % 2 = 0))]
    exact congrArg (fun z => swap16 (buffer (maskIdx z))) (by push_cast; ring)
  · first
    | trivial
    | omega
  · rw [SamplesDifference_fract0 W (R + 2 * (c : Int)) (D - 2 * c) (by omega) (by omega)
      (by omega)]
    omega
  · trivial

end AudioCommon

namespace AudioCommon

theorem c1_step0 (scratch buffer out0 : Nat → Int) (R W : Int) (steps D n : Nat)
    (ls rs : Int)
    (hD : W - R = (D : Int)) (hD1 : 2 * n + 6 ≤ D) (hD2 : D ≤ 131072)
    (hn : 0 < n) (hsteps : n < steps) (h0 : ∀ k, out0 k = 0) :
    ciStep (c1P scratch buffer R W steps)
      { out := out0, indexR := R, fract := -1, l_s := ls, r_s := rs,
        available := D, nextAvailable := D, i := 0 } =
      c1St buffer out0 R D 1 := by
  have em1 : (-1 : ℚ) + 1 = 0 := by norm_num
  simp only [ciStep, c1P, c1St, iteTrueArm, if_true, em1, u32trunc_zero, Nat.cast_zero,
    sub_zero, zero_mul, mul_zero, add_zero, Nat.zero_add, Nat.sub_self, Nat.sub_zero,
    mul_one, one_mul, NC_eq, Nat.cast_ofNat, Nat.cast_one, cubicWeights_zero,
    channelSum_taps0, roundAway_intCast, volume_unity, CILoop.mk.injEq]
  refine ⟨?_, ?_, ?_, ?_, ?_, ?_, ?_, ?_⟩
  · funext k
    by_cases h1 : k = 1
    · subst h1
      rw [if_pos rfl, if_neg (by omega : ¬(1 = 0)), h0 1,
        if_pos (by omega : (1 : Nat) < 2), zero_add,
        swapScratch_cover scratch buffer R (R + 2) steps 1 (by omega)
          (Or.inl (by push_cast; ring)),
        clamp16_of_range _ (swap16_range _).1 (swap16_range _).2]
      simp only [c1Exp]
      norm_num
      exact congrArg (fun z => swap16 (buffer (maskIdx z))) (by ring)
    · by_cases h2 : k = 0
      · subst h2
        rw [if_neg h1, if_pos rfl, h0 0, if_pos (by omega : (0 : Nat) < 2), zero_add,
          swapScratch_cover scratch buffer R (R + 2 + 1) steps 1 (by omega)
            (Or.inr (by push_cast; ring)),
          clamp16_of_range _ (swap16_range _).1 (swap16_range _).2]
        simp only [c1Exp]
        norm_num
        exact congrArg (fun z => swap16 (buffer (maskIdx z))) (by ring)
      · rw [if_neg h1, if_neg h2, if_neg (by omega : ¬(k < 2))]
  · push_cast
    ring
  · trivial
  · rw [swapScratch_cover scratch buffer R (R + 2 + 1) steps 1 (by omega)
      (Or.inr (by push_cast; ring))]
    simp only [c1Exp]
    norm_num
    exact congrArg (fun z => swap16 (buffer (maskIdx z))) (by ring)
  · rw [swapScratch_cover scratch buffer R (R + 2) steps 1 (by omega)
      (Or.inl (by push_cast; ring))]
    simp only [c1Exp]
    norm_num
    exact congrArg (fun z => swap16 (buffer (maskIdx z))) (by ring)
  · first
    | trivial
    | omega
  · rw [SamplesDifference_fract0 W R D hD (by omega) (by omega)]
  · trivial

end AudioCommon

namespace AudioCommon

theorem c1_run (scratch buffer out0 : Nat → Int) (R W : Int) (steps D n : Nat)
    (hD : W - R = (D : Int)) (hD1 : 2 * n + 6 ≤ D) (hD2 : D ≤ 131072)
    (hsteps : n < steps) (h0 : ∀ k, out0 k = 0) :
    ∀ fuel c, 1 ≤ c → c + fuel = n →
    ciLoop (c1P scratch buffer R W steps) fuel (c1St buffer out0 R D c) =
      c1St buffer out0 R D n := by
  intro fuel
  induction fuel with
  | zero =>
    intro c h1 h2
    rw [show c = n by omega]
    rfl
  | succ m ih =>
    intro c h1 h2
    have h6 : INTERP_SAMPLES * NC = 6 := rfl
    have hg1 : INTERP_SAMPLES * NC < (c1St buffer out0 R D c).nextAvailable := by
      show INTERP_SAMPLES * NC < D - 2 * c
      omega
    have hg2 : (c1St buffer out0 R D c).nextAvailable ≤ (c1St buffer out0 R D c).available := by
      show D - 2 * c ≤ D - 2 * (c - 1)
      omega
    rw [ciLoop, if_neg (fun hx => hx.2 ⟨hg1, hg2⟩),
      c1_step scratch buffer out0 R W steps D n c hD hD1 hD2 hsteps h0 h1 (by omega)]
    exact ih (c + 1) (by omega) (by omega)

theorem c1P_eta (scratch buffer : Nat → Int) (R W : Int) (steps : Nat) :
    c1P scratch buffer R W steps =
      { scratch := swapScratch scratch buffer R 1 steps, indexW := W, rate := 1, rateG := 1,
        mFract := -1, lVolume := 256, rVolume := 256, forwards := true, base := 0 } := rfl

theorem c1_cubic (scratch buffer out0 : Nat → Int) (R W : Int) (ls rs : Int) (n D : Nat)
    (hD : W - R = (D : Int)) (hD1 : 2 * n + 6 ≤ D) (hD2 : D ≤ 131072)
    (hn : 0 < n) (h0 : ∀ k, out0 k = 0) :
    (CubicInterpolation scratch buffer (-1) 1 out0 0 n 1 R W ls rs 256 256 true (-1)).count =
      n ∧
    ∀ i < n,
      (CubicInterpolation scratch buffer (-1) 1 out0 0 n 1 R W ls rs 256 256
          true (-1)).out (2 * i) =
        swap16 (buffer (maskIdx (R + 2 * (i : Int) + 3))) ∧
      (CubicInterpolation scratch buffer (-1) 1 out0 0 n 1 R W ls rs 256 256
          true (-1)).out (2 * i + 1) =
        swap16 (buffer (maskIdx (R + 2 * (i : Int) + 2))) := by
  have hav : SamplesDifference W R (-1) 1 = D := SamplesDifference_neg1 W R D hD hD2
  have hfirst : GetNextIndexR R (-1) 1 = R := GetNextIndexR_of_neg R (-1) 1 (by norm_num)
  have hX : u32trunc (1 * (n : ℚ)) * NC + NC + INTERP_SAMPLES * NC = 2 * n + 8 := by
    rw [one_mul, u32trunc_natCast]
    simp only [NC_eq, INTERP_SAMPLES]
    omega
  have key : ∀ steps', n < steps' →
      ciLoop (c1P scratch buffer R W steps') n
        { out := out0, indexR := R, fract := -1, l_s := ls, r_s := rs,
          available := D, nextAvailable := D, i := 0 } = c1St buffer out0 R D n := by
    intro steps' hs'
    cases n with
    | zero => omega
    | succ m =>
      have h6 : INTERP_SAMPLES * NC < D := by
        have e6 : INTERP_SAMPLES * NC = 6 := rfl
        omega
      rw [ciLoop, if_neg (fun hx => hx.2 ⟨h6, le_refl D⟩),
        c1_step0 scratch buffer out0 R W steps' D (m + 1) ls rs hD hD1 hD2 (by omega) hs' h0]
      exact c1_run scratch buffer out0 R W steps' D (m + 1) hD hD1 hD2 hs' h0 m 1 (by omega)
        (by omega)
  simp only [CubicInterpolation, hav, hfirst, if_true, ite_self, hX]
  rw [← c1P_eta]
  rw [key (min (2 * n + 8) D / NC + 1) (by simp only [NC_eq]; omega)]
  refine ⟨rfl, ?_⟩
  intro i hi
  constructor
  · show (if 2 * i < 2 * n then c1Exp buffer R (2 * i) else out0 (2 * i)) = _
    rw [if_pos (by omega : 2 * i < 2 * n)]
    simp only [c1Exp]
    rw [if_pos (by omega : (2 * i) % 2 = 0)]
    exact congrArg (fun z => swap16 (buffer (maskIdx z))) (by push_cast; ring)
  · show (if 2 * i + 1 < 2 * n then c1Exp buffer R (2 * i + 1) else out0 (2 * i + 1)) = _
    rw [if_pos (by omega : 2 * i + 1 < 2 * n)]
    simp only [c1Exp]
    rw [if_neg (by omega : ¬((2 * i + 1) % 2 = 0))]
    exact congrArg (fun z => swap16 (buffer (maskIdx z))) (by push_cast; ring)

end AudioCommon

namespace AudioCommon

theorem Mix_full (f : MixerFifo) (env : MixerEnv) (scratch out : Nat → Int) (n : Nat)
    (h : (fwdPass f env scratch out n false).count = n) :
    (f.Mix env scratch out n false).out = (fwdPass f env scratch out n false).out := by
  simp only [MixerFifo.Mix]
  rw [← fwdPass_def]
  have hA : ¬((fwdPass f env scratch out n false).count ≠ n ∧
      0 < (fwdPass f env scratch out n false).count) := fun hx => hx.1 h
  have hB : ¬((fwdPass f env scratch out n false).count ≠ n) := fun hx => hx h
  have hC : ¬(0 < n - (fwdPass f env scratch out n false).count ∧
      f.constantly_pushed = true ∧ True) := by
    intro hx
    have h1 := hx.1
    omega
  have hD2 : ¬(0 < n - (fwdPass f env scratch out n false).count ∧
      (f.constantly_pushed = true ∨ f.currently_pushed = true)) := by
    intro hx
    have h1 := hx.1
    omega
  simp only [if_neg hA, if_neg hB, if_neg hC, if_neg hD2]

/-- C1: with input rate equal to the mixer rate, speed 1, both volumes at
the unity value 256, a reset fract, a pre-zeroed output and `D` buffered
shorts with `2n + 6 ≤ D ≤ 131072`, `Mix(out, n, false)` produces exactly
`n` frames and each output frame is the byte-swapped ring content one
frame past the read cursor: slot `2i` holds `swap16` of ring slot
`R + 2i + 3` and slot `2i + 1` holds `swap16` of ring slot `R + 2i + 2` -
exact equality, sample by sample. -/
theorem claim_C1 (f : MixerFifo) (env : MixerEnv) (scratch out : Nat → Int) (n D : Nat)
    (hr : f.input_sample_rate = env.sample_rate) (hs : env.speed = 1)
    (hne : env.sample_rate ≠ 0) (hlv : f.lVolume = 256) (hrv : f.rVolume = 256)
    (hf : f.fract = -1) (hD : f.indexW - f.indexR = (D : Int))
    (hD1 : 2 * n + 6 ≤ D) (hD2 : D ≤ 131072) (hn : 0 < n) (hout : ∀ k, out k = 0) :
    (f.Mix env scratch out n false).count = n ∧
    ∀ i < n,
      (f.Mix env scratch out n false).out (2 * i) =
        swap16 (f.buffer (maskIdx (f.indexR + 2 * (i : Int) + 3))) ∧
      (f.Mix env scratch out n false).out (2 * i + 1) =
        swap16 (f.buffer (maskIdx (f.indexR + 2 * (i : Int) + 2))) := by
  have hrate : f.input_sample_rate * (if (false : Bool) = true then 1 else env.speed) /
      env.sample_rate = 1 := by
    rw [hr, hs]
    simp [hne]
  have hrateG : f.input_sample_rate * env.speed / env.sample_rate = 1 := by
    rw [hr, hs, mul_one, div_self hne]
  have hfw : fwdPass f env scratch out n false =
      CubicInterpolation scratch f.buffer (-1) 1 out 0 n 1 f.indexR f.indexW
        f.last_output_sample_r f.last_output_sample_r 256 256 true (-1) := by
    simp only [fwdPass]
    rw [hrate, hrateG, hf, hlv, hrv]
  obtain ⟨hcnt, hvals⟩ := c1_cubic scratch f.buffer out f.indexR f.indexW
    f.last_output_sample_r f.last_output_sample_r n D hD hD1 hD2 hn hout
  have hcount : (fwdPass f env scratch out n false).count = n := by
    rw [hfw]
    exact hcnt
  constructor
  · rw [Mix_count]
    exact hcount
  · intro i hi
    rw [Mix_full f env scratch out n hcount, hfw]
    exact hvals i hi

/-- The FIFO of the C1 witness: 4 buffered frames at rate 48 kHz, unity
volume, reset fract. -/
def fifoC1 : MixerFifo :=
  { buffer := fun k => if k = 3 then 258 else if k = 2 then 772 else 0, indexW := 8,
    indexR := 0, fract := -1, backwards_fract := 0, backwards_indexR := 0,
    last_output_sample_l := 0, last_output_sample_r := 0, constantly_pushed := true,
    currently_pushed := true, input_sample_rate := 48000, lVolume := 256, rVolume := 256 }

/-- C1 witness: one frame requested from 8 buffered shorts at equal rates. -/
theorem claim_C1_witness :
    (fifoC1.Mix ⟨48000, 1⟩ (fun _ => 0) (fun _ => 0) 1 false).count = 1 ∧
    ∀ i < 1,
      (fifoC1.Mix ⟨48000, 1⟩ (fun _ => 0) (fun _ => 0) 1 false).out (2 * i) =
        swap16 (fifoC1.buffer (maskIdx (fifoC1.indexR + 2 * (i : Int) + 3))) ∧
      (fifoC1.Mix ⟨48000, 1⟩ (fun _ => 0) (fun _ => 0) 1 false).out (2 * i + 1) =
        swap16 (fifoC1.buffer (maskIdx (fifoC1.indexR + 2 * (i : Int) + 2))) :=
  claim_C1 fifoC1 ⟨48000, 1⟩ (fun _ => 0) (fun _ => 0) 1 8 rfl rfl (by norm_num) rfl rfl rfl
    (by norm_num [fifoC1]) (by norm_num) (by norm_num) (by norm_num) (fun k => rfl)

end AudioCommon
